import Mathlib

/-!
# Verification of the schevo fixed-width ingestion pipeline

A shallow embedding of `src/schevo/charger.py`, `src/schevo/decoder.py` and
`src/schevo/constants.py`, together with proofs and refutations of the
specification's claims.  Text is modelled as `List Char`; machine files as
lists of rows; the relational store as an association list from table name
to stored rows.
-/

namespace Schevo

/-! ## Character helpers (ASCII fragment of the Python string primitives) -/

/-- `c` is an ASCII lowercase letter or a digit, the class `[a-z0-9]` of the
regular expression in `define_record_name`. -/
def isLowerAlnum (c : Char) : Bool :=
  (97 ≤ c.toNat && c.toNat ≤ 122) || (48 ≤ c.toNat && c.toNat ≤ 57)

/-- `c` is an ASCII digit, the class `\d` used by `re.match` in
`define_record_name` (output characters are always ASCII there). -/
def isDigitChar (c : Char) : Bool :=
  48 ≤ c.toNat && c.toNat ≤ 57

/-- ASCII case folding, modelling Python `str.lower` on the ASCII range. -/
def pyToLower (c : Char) : Char :=
  if 65 ≤ c.toNat && c.toNat ≤ 90 then Char.ofNat (c.toNat + 32) else c

/-- One step of `re.sub(r'[^a-z0-9]+', '_', s)`: every character outside
`[a-z0-9]` is replaced by an underscore (runs are collapsed afterwards by
`squeezeUnd`). -/
def replaceNon (c : Char) : Char :=
  if isLowerAlnum c then c else '_'

/-! ## List-of-characters helpers -/

/-- Collapse every run of consecutive underscores to a single underscore.
Together with `List.map replaceNon` this models
`re.sub(r'[^a-z0-9]+', '_', s)`. -/
def squeezeUnd : List Char → List Char
  | [] => []
  | [c] => [c]
  | a :: b :: rest =>
      if a == '_' && b == '_' then squeezeUnd (b :: rest)
      else a :: squeezeUnd (b :: rest)

/-- Remove the trailing characters satisfying `p` (the right half of
Python `str.strip`). -/
def dropTrailing (p : Char → Bool) : List Char → List Char
  | [] => []
  | a :: r =>
      if (dropTrailing p r).isEmpty && p a then [] else a :: dropTrailing p r

/-- Python `str.strip(chars)`: remove the characters satisfying `p` from
both ends. -/
def stripBoth (p : Char → Bool) (l : List Char) : List Char :=
  dropTrailing p (l.dropWhile p)

/-- No two consecutive underscores occur in the list. -/
def noDouble : List Char → Bool
  | [] => true
  | [_] => true
  | a :: b :: r => (!(a == '_' && b == '_')) && noDouble (b :: r)

/-! ## `define_record_name` (charger.py lines 16-27) -/

/-- `re.sub(r'[^a-z0-9]+', '_', record_name.lower()).strip('_')`:
lowercase, collapse runs of characters outside `[a-z0-9]` to `_`, strip
leading/trailing underscores. -/
def normalizeCore (s : List Char) : List Char :=
  stripBoth (· == '_') (squeezeUnd ((s.map pyToLower).map replaceNon))

/-- `re.match(r'^\d', s)` viewed as a Boolean test: the first character is
a digit. -/
def startsWithDigit (l : List Char) : Bool :=
  match l with
  | [] => false
  | c :: _ => isDigitChar c

/-- `define_record_name`: `normalizeCore`, then prepend `c_` when the
result starts with a digit (`re.match(r'^\d', ...)`). -/
def define_record_name (s : List Char) : List Char :=
  if startsWithDigit (normalizeCore s) then 'c' :: '_' :: normalizeCore s
  else normalizeCore s

/-- A character allowed by the regex `^[a-z0-9_]+$`. -/
def isIdentChar (c : Char) : Bool :=
  isLowerAlnum c || c == '_'

/-- The regex `^[a-z0-9_]+$` from the specification: non-empty, and every
character in `[a-z0-9_]`. -/
def matchesIdentRegex (l : List Char) : Bool :=
  !l.isEmpty && l.all isIdentChar

/-! ## Decimal numerals and the `#<index>` chunk-name suffix -/

/-- The decimal digit character for `n < 10` (clamped at `9` above). -/
def digitToChar (n : Nat) : Char :=
  match n with
  | 0 => '0' | 1 => '1' | 2 => '2' | 3 => '3' | 4 => '4'
  | 5 => '5' | 6 => '6' | 7 => '7' | 8 => '8' | _ => '9'

/-- Numeric value of a decimal digit character. -/
def digitVal (c : Char) : Nat := c.toNat - 48

/-- Parse a string of decimal digits, as Python `int` does on an all-digit
string (most significant digit first). -/
def parseDigits (l : List Char) : Nat :=
  l.foldl (fun n c => n * 10 + digitVal c) 0

/-- Fuelled digit production for `natRepr` (the fuel is only there to make
the recursion structural; `natRepr` always supplies enough). -/
def natReprAux : Nat → Nat → List Char
  | 0, _ => []
  | fuel + 1, n =>
      if n < 10 then [digitToChar n]
      else natReprAux fuel (n / 10) ++ [digitToChar (n % 10)]

/-- The decimal numeral of `n`, as Python `str`/f-string formatting
produces for a non-negative integer. -/
def natRepr (n : Nat) : List Char := natReprAux (n + 1) n

/-- Python `int(s)` restricted to an optional leading minus sign and
digits (the only shapes the pipeline feeds it). -/
def pyInt (s : List Char) : Int :=
  match s with
  | '-' :: r => -(parseDigits r : Int)
  | _ => (parseDigits s : Int)

/-- Helper for `rsplitHash`: locate the last `#`, returning the parts
before and after it, or `none` when there is no `#`. -/
def rsplitHashAux : List Char → Option (List Char × List Char)
  | [] => none
  | c :: cs =>
      match rsplitHashAux cs with
      | some p => some (c :: p.1, p.2)
      | none => if c == '#' then some ([], cs) else none

/-- Python `name.rsplit('#', maxsplit=1)`: split at the last `#`.  When no
`#` occurs Python returns the one-element list `[name]`, in which case
indices `0` and `-1` both denote `name` itself — modelled by the pair
`(name, name)`. -/
def rsplitHash (s : List Char) : List Char × List Char :=
  match rsplitHashAux s with
  | some p => p
  | none => (s, s)

/-- charger.py lines 161-162: `substream = stream.name.rsplit('#', 1)`;
`filename, row_number = substream[0],
row_num + (int(substream[-1].replace('#', '')) * rows_break)`. -/
def reconstruct (name : List Char) (rowsBreak : Nat) (rowNum : Nat) :
    List Char × Nat :=
  ((rsplitHash name).1,
   rowNum + parseDigits (((rsplitHash name).2).filter (fun c => !(c == '#'))) * rowsBreak)

/-! ## `break_stream` (charger.py lines 96-130) -/

/-- The write loop of `break_stream`: rows are appended to the open chunk
`cur`; after writing row `rowNum`, when `rowNum % k == 0` the chunk is
closed (emitted with its `suffix` index) and a fresh one is opened.  The
final chunk is closed at end of input.  Chunks are returned in creation
order, tagged with the `#<suffix>` index used in their file name. -/
def breakLoop {α : Type} (k : Nat) :
    List α → Nat → List α → Nat → List (Nat × List α)
  | [], _, cur, suffix => [(suffix, cur)]
  | r :: rs, rowNum, cur, suffix =>
      if rowNum % k == 0 then
        (suffix, cur ++ [r]) :: breakLoop k rs (rowNum + 1) [] (suffix + 1)
      else breakLoop k rs (rowNum + 1) (cur ++ [r]) suffix

/-- `break_stream(stream, rows_break=k)`: split the file's rows into
chunks of `k` rows; the chunk file `#0` is opened before any row is read,
and rows are enumerated from 1. -/
def break_stream {α : Type} (rows : List α) (k : Nat) : List (Nat × List α) :=
  breakLoop k rows 1 [] 0

/-- The chunk file name `f'{stream.name}#{suffix}'`. -/
def chunkName (base : List Char) (i : Nat) : List Char :=
  base ++ '#' :: natRepr i

/-- `break_stream` viewed at the file-name level: each created chunk keyed
by its `<original-name>#<index>` file name. -/
def break_stream_named {α : Type} (base : List Char) (rows : List α) (k : Nat) :
    List (List Char × List α) :=
  (break_stream rows k).map (fun ic => (chunkName base ic.1, ic.2))

/-- Reference chunking used to reason about `break_stream`: groups of `k`
rows, with a trailing empty chunk exactly when `k` divides the row count. -/
def chunkSpec {α : Type} (k : Nat) (rows : List α) : List (List α) :=
  if hk : k = 0 then [rows]
  else if h : rows.length < k then [rows]
  else rows.take k :: chunkSpec k (rows.drop k)
termination_by rows.length
decreasing_by
  rw [List.length_drop]
  omega

/-- The chunking that `break_stream`'s loop still produces when the
currently open chunk already holds `cur`: a generalization of `chunkSpec`
used as the loop invariant. -/
def chunkCont {α : Type} (k : Nat) (cur rows : List α) : List (List α) :=
  if rows.length < k - cur.length then [cur ++ rows]
  else (cur ++ rows.take (k - cur.length)) :: chunkSpec k (rows.drop (k - cur.length))

/-- Number the elements of a list consecutively starting from `n`. -/
def numberFrom {α : Type} (n : Nat) : List α → List (Nat × α)
  | [] => []
  | a :: r => (n, a) :: numberFrom (n + 1) r

/-- Every row of every chunk of `break_stream_named`, keyed by the
`(filename, row number)` pair that `charge_stream` reconstructs from the
chunk's file name and the row's 1-based local position inside the chunk. -/
def reconstructedRows {α : Type} (base : List Char) (rows : List α) (k : Nat) :
    List ((List Char × Nat) × α) :=
  (break_stream_named base rows k).flatMap
    (fun nc => (numberFrom 1 nc.2).map (fun jr => (reconstruct nc.1 k jr.1, jr.2)))

/-! ## The record decoder (decoder.py lines 48-84) -/

/-- The semantic field types of the layout (`field.get('type')`); a missing
or unknown type tag behaves exactly like `string` (the `case _: pass`
fallthrough), so `string` stands for both. -/
inductive FType
  | string | integer | decimal | date | time | datetime
deriving DecidableEq

/-- One field of a record layout: 1-based inclusive `begin`/`end`
positions, semantic type, optional format string. -/
structure FieldSpec where
  fbegin : Nat
  fend : Nat
  ftype : FType
  format : Option (List Char)
deriving DecidableEq

/-- A decoded Python value.  Parsed date/time/datetime and decimal values
are kept symbolically as (text, format) pairs: the pipeline never inspects
the parsed value itself, only its type, and a parse failure would
propagate as an exception (out of scope of these claims). -/
inductive PyVal
  | vstr (s : List Char)
  | vint (n : Int)
  | vdec (s : List Char) (fmt : List Char)
  | vdate (s : List Char) (fmt : List Char)
  | vtime (s : List Char) (fmt : List Char)
  | vdatetime (s : List Char) (fmt : List Char)
  | vnone
deriving DecidableEq

/-- Python slice `s[a:b]` for non-negative bounds. -/
def pySlice (s : List Char) (a b : Nat) : List Char :=
  (s.drop a).take (b - a)

/-- Python `str.strip()` whitespace (the ASCII part). -/
def isPySpace (c : Char) : Bool :=
  c == ' ' || c == '\t' || c == '\n' || c == '\r' || c.toNat == 11 || c.toNat == 12

/-- The body of the `for key, field in config.items()` loop of
`decode_record`: slice the field's span, strip whitespace, coerce by type,
then apply the final normalization
`value if value and isinstance(value, str) else None`. -/
def decode_field (record : List Char) (field : FieldSpec) : PyVal :=
  let value := stripBoth isPySpace (pySlice record (field.fbegin - 1) field.fend)
  let v : PyVal :=
    if (field.ftype == FType.date || field.ftype == FType.time
          || field.ftype == FType.datetime)
        && (stripBoth (· == '0') value).isEmpty then PyVal.vnone
    else if field.ftype == FType.datetime && !value.isEmpty then
      PyVal.vdatetime value (field.format.getD ("%Y%m%d%H%M%S".toList))
    else if field.ftype == FType.date && !value.isEmpty then
      PyVal.vdate value (field.format.getD ("%Y%m%d".toList))
    else if field.ftype == FType.time && !value.isEmpty then
      PyVal.vtime value (field.format.getD ("%H%M%S".toList))
    else if field.ftype == FType.integer && !value.isEmpty then
      PyVal.vint (pyInt value)
    else if field.ftype == FType.decimal && !value.isEmpty then
      PyVal.vdec value (field.format.getD ("e-2".toList))
    else PyVal.vstr value
  match v with
  | PyVal.vstr s => if s.isEmpty then PyVal.vnone else PyVal.vstr s
  | _ => PyVal.vnone

/-- `decode_record(record, config)`: `None` when no layout is registered
for the record code (`if not config: return None` — also for an empty
layout, which is falsy in Python), else one decoded value per layout
field. -/
def decode_record (record : List Char)
    (config : Option (List (List Char × FieldSpec))) :
    Option (List (List Char × PyVal)) :=
  match config with
  | none => none
  | some cfg =>
      if cfg.isEmpty then none
      else some (cfg.map (fun kv => (kv.1, decode_field record kv.2)))

/-! ## The store model and `charge_stream` (charger.py lines 133-180) -/

/-- A persisted row: the three system fields plus the decoded payload. -/
structure StoredRow where
  filename : List Char
  rowNumber : Nat
  insDate : Nat
  fields : List (List Char × PyVal)
deriving DecidableEq

/-- The relational store: an association list from table name to the
table's rows in insertion order. -/
def DB : Type := List (List Char × List StoredRow)

/-- The rows of table `t` (empty when the table holds no rows yet). -/
def getTable : DB → List Char → List StoredRow
  | [], _ => []
  | (n, rs) :: rest, t => if n = t then rs else getTable rest t

/-- `INSERT INTO t`: append one row to table `t`. -/
def insertRow : DB → List Char → StoredRow → DB
  | [], t, r => [(t, [r])]
  | (n, rs) :: rest, t, r =>
      if n = t then (n, rs ++ [r]) :: rest else (n, rs) :: insertRow rest t r

/-- `QUERY_CHK_DUPLICATE`: a row with this `(sys_filename,
sys_row_number)` pair exists in table `t`. -/
def seen (db : DB) (t fn : List Char) (num : Nat) : Bool :=
  (getTable db t).any (fun r => r.filename == fn && r.rowNumber == num)

/-- Number of rows of table `t`. -/
def tableCount (db : DB) (t : List Char) : Nat :=
  (getTable db t).length

/-- The per-stream configuration consumed by `charge_stream`: the
record-code span `config['record_code']` and the record-code → layout map
`config['config']`. -/
structure StreamConfig where
  recordCode : Nat × Nat
  records : List (List Char × List (List Char × FieldSpec))

/-- `row[config['record_code'][0] - 1 : config['record_code'][1]]`. -/
def rowRecordCode (cfg : StreamConfig) (row : List Char) : List Char :=
  pySlice row (cfg.recordCode.1 - 1) cfg.recordCode.2

/-- `define_record_name(f'{stream_name.lower()}_{record_code.lower()}')`. -/
def rowTable (streamName : List Char) (cfg : StreamConfig) (row : List Char) :
    List Char :=
  define_record_name
    ((streamName.map pyToLower) ++ '_' :: ((rowRecordCode cfg row).map pyToLower))

/-- One iteration of `charge_stream`'s row loop: decode (skip unroutable
rows), reconstruct the dedup key from the chunk file name, skip on a
duplicate hit, otherwise insert the row with the three system fields. -/
def chargeRow (db : DB) (name streamName : List Char) (cfg : StreamConfig)
    (jobBegin : Nat) (rowsBreak : Nat) (rowNum : Nat) (row : List Char) : DB :=
  match decode_record row (List.lookup (rowRecordCode cfg row) cfg.records) with
  | none => db
  | some rec =>
      let tbl := rowTable streamName cfg row
      let key := reconstruct name rowsBreak rowNum
      if seen db tbl key.1 key.2 then db
      else insertRow db tbl ⟨key.1, key.2, jobBegin, rec⟩

/-- The row loop of `charge_stream`, rows enumerated from `rowNum`. -/
def chargeRows (name streamName : List Char) (cfg : StreamConfig)
    (jobBegin : Nat) (rowsBreak : Nat) :
    DB → Nat → List (List Char) → DB
  | db, _, [] => db
  | db, rowNum, row :: rest =>
      chargeRows name streamName cfg jobBegin rowsBreak
        (chargeRow db name streamName cfg jobBegin rowsBreak rowNum row)
        (rowNum + 1) rest

/-- `charge_stream(stream, stream_name, config, job_begin, rows_break)`
over the store `db`: `name` is the chunk file's name, `rows` its rows
(enumerated from 1). -/
def charge_stream (db : DB) (name streamName : List Char) (cfg : StreamConfig)
    (jobBegin : Nat) (rowsBreak : Nat) (rows : List (List Char)) : DB :=
  chargeRows name streamName cfg jobBegin rowsBreak db 1 rows

/-- The ingestion of one input file as the scheduler drives it: split into
chunks, then charge every chunk (the chunk workers' inserts, serialized in
chunk order; the dedup key does not depend on that order). -/
def runPipelineOnFile (db : DB) (base streamName : List Char)
    (cfg : StreamConfig) (jobBegin : Nat) (rowsBreak : Nat)
    (rows : List (List Char)) : DB :=
  (break_stream_named base rows rowsBreak).foldl
    (fun d nc => charge_stream d nc.1 streamName cfg jobBegin rowsBreak nc.2) db

/-! ## Schema synchronization (`check_stream`, charger.py lines 51-93) -/

/-- A rendered SQL column type (`SQL_FORMATS` of constants.py). -/
inductive SqlType
  | varchar (n : Nat)
  | integer
  | numeric (p s : Nat)
  | date
  | time
  | timestamp
deriving DecidableEq

/-- `record['end'] - record['begin'] + 1`. -/
def fieldWidth (f : FieldSpec) : Nat := f.fend - f.fbegin + 1

/-- `int(record.get('format', 'e-2').split('-')[1])`: the digits between
the first `-` and the next `-` (or the end). -/
def formatScale (fmt : List Char) : Nat :=
  parseDigits (((fmt.dropWhile (fun c => !(c == '-'))).drop 1).takeWhile
    (fun c => !(c == '-')))

/-- `define_record_type(record)`: map a layout field to its SQL type. -/
def define_record_type (f : FieldSpec) : SqlType :=
  match f.ftype with
  | FType.decimal => SqlType.numeric (fieldWidth f) (formatScale (f.format.getD ("e-2".toList)))
  | FType.string => SqlType.varchar (fieldWidth f)
  | FType.integer => SqlType.integer
  | FType.date => SqlType.date
  | FType.time => SqlType.time
  | FType.datetime => SqlType.timestamp

/-- A DDL statement issued by the existing-table branch of `check_stream`. -/
inductive DDL
  | addColumn (table col : List Char) (ty : SqlType)
  | alterColumn (table col : List Char) (ty : SqlType)
deriving DecidableEq

/-- `columns[key][1] < width`, guarded by the `VARCHAR` check (Python's
short-circuit keeps the `None` length of non-string columns away from
`<`). -/
def lenLt (len : Option Nat) (w : Nat) : Bool :=
  match len with
  | some l => l < w
  | none => false

/-- The body of the `for key, value in columns_config.items()` loop on an
existing table: `key not in columns` issues `ADD COLUMN` under the RAW
key; else a `VARCHAR` column shorter than the field's width is altered to
`define_record_type(value)`. -/
def emitFieldDDL (tableName : List Char)
    (columns : List (List Char × (List Char × Option Nat)))
    (kv : List Char × FieldSpec) : List DDL :=
  match List.lookup kv.1 columns with
  | none => [DDL.addColumn tableName kv.1 (define_record_type kv.2)]
  | some tl =>
      if tl.1 == ("VARCHAR".toList) && lenLt tl.2 (fieldWidth kv.2) then
        [DDL.alterColumn tableName kv.1 (define_record_type kv.2)]
      else []

/-- The DDL issued by `check_stream` for one record code whose table
already exists, given the observed columns
(name, data_type, character_maximum_length). -/
def checkExistingTable (tableName : List Char)
    (columns : List (List Char × (List Char × Option Nat)))
    (layout : List (List Char × FieldSpec)) : List DDL :=
  layout.flatMap (emitFieldDDL tableName columns)

/-- The column list built by the CREATE TABLE branch of `check_stream`
(lines 86-89): `records += define_record_name(key)` followed by
`define_record_type(value)`. -/
def createColumns (layout : List (List Char × FieldSpec)) :
    List (List Char × SqlType) :=
  layout.map (fun kv => (define_record_name kv.1, define_record_type kv.2))

/-! ### Lemmas about the normalizer's building blocks -/

theorem squeezeUnd_all (P : Char → Bool) :
    ∀ l : List Char, l.all P → (squeezeUnd l).all P := by
  intro l
  induction l with
  | nil => intro h; exact h
  | cons a r ih =>
    cases r with
    | nil => intro h; exact h
    | cons b r' =>
      intro h
      simp only [List.all_cons, Bool.and_eq_true] at h
      simp only [squeezeUnd]
      by_cases hab : (a == '_' && b == '_') = true
      · rw [if_pos hab]
        exact ih (by simp [List.all_cons, h.2.1, h.2.2])
      · rw [if_neg hab]
        simp only [List.all_cons, Bool.and_eq_true]
        exact ⟨h.1, ih (by simp [List.all_cons, h.2.1, h.2.2])⟩

theorem dropWhile_all (P p : Char → Bool) (l : List Char) (h : l.all P) :
    (l.dropWhile p).all P := by
  induction l with
  | nil => exact h
  | cons a r ih =>
    simp only [List.all_cons, Bool.and_eq_true] at h
    rw [List.dropWhile_cons]
    by_cases hp : p a = true
    · rw [if_pos hp]; exact ih h.2
    · rw [if_neg hp]
      simp only [List.all_cons, Bool.and_eq_true]
      exact ⟨h.1, h.2⟩

theorem dropTrailing_all (P p : Char → Bool) (l : List Char) (h : l.all P) :
    (dropTrailing p l).all P := by
  induction l with
  | nil => exact h
  | cons a r ih =>
    simp only [List.all_cons, Bool.and_eq_true] at h
    simp only [dropTrailing]
    by_cases hc : ((dropTrailing p r).isEmpty && p a) = true
    · rw [if_pos hc]; rfl
    · rw [if_neg hc]
      simp only [List.all_cons, Bool.and_eq_true]
      exact ⟨h.1, ih h.2⟩

theorem stripBoth_all (P p : Char → Bool) (l : List Char) (h : l.all P) :
    (stripBoth p l).all P :=
  dropTrailing_all P p _ (dropWhile_all P p l h)

/-- The head of `squeezeUnd` on a non-empty list is the original head. -/
theorem squeezeUnd_head : ∀ (b : Char) (rest : List Char),
    (squeezeUnd (b :: rest)).head? = some b := by
  intro b rest
  induction rest generalizing b with
  | nil => rfl
  | cons c r ih =>
    simp only [squeezeUnd]
    by_cases h : (b == '_' && c == '_') = true
    · rw [if_pos h]
      have hab := h
      rw [Bool.and_eq_true] at hab
      have hb : b = '_' := eq_of_beq hab.1
      have hc : c = '_' := eq_of_beq hab.2
      rw [ih c, hb, hc]
    · rw [if_neg h]; rfl

theorem noDouble_tail : ∀ (a : Char) (l : List Char),
    noDouble (a :: l) = true → noDouble l = true := by
  intro a l h
  cases l with
  | nil => rfl
  | cons b r =>
    simp only [noDouble, Bool.and_eq_true] at h
    exact h.2

theorem noDouble_cons (a : Char) (l : List Char)
    (hl : noDouble l = true)
    (hh : ∀ b, l.head? = some b → ¬(a = '_' ∧ b = '_')) :
    noDouble (a :: l) = true := by
  cases l with
  | nil => rfl
  | cons b r =>
    simp only [noDouble, Bool.and_eq_true]
    refine ⟨?_, hl⟩
    have := hh b rfl
    simp only [Bool.not_eq_true', Bool.and_eq_false_iff]
    by_cases ha : a = '_'
    · have hb : ¬ b = '_' := fun hb => this ⟨ha, hb⟩
      right; simpa using hb
    · left; simpa using ha

theorem squeezeUnd_noDouble : ∀ l : List Char, noDouble (squeezeUnd l) = true := by
  intro l
  induction l with
  | nil => rfl
  | cons a r ih =>
    cases r with
    | nil => rfl
    | cons b r' =>
      simp only [squeezeUnd]
      by_cases h : (a == '_' && b == '_') = true
      · rw [if_pos h]
        simpa [squeezeUnd] using ih
      · rw [if_neg h]
        refine noDouble_cons a _ (by simpa [squeezeUnd] using ih) ?_
        intro c hc hcontra
        rw [squeezeUnd_head b r'] at hc
        have hcb : b = c := Option.some.inj hc
        apply h
        rw [Bool.and_eq_true]
        exact ⟨beq_iff_eq.2 hcontra.1, beq_iff_eq.2 (hcb ▸ hcontra.2)⟩

theorem dropWhile_head_not (p : Char → Bool) :
    ∀ (l : List Char) (c : Char), (l.dropWhile p).head? = some c → p c = false := by
  intro l
  induction l with
  | nil => intro c hc; simp at hc
  | cons a r ih =>
    intro c hc
    rw [List.dropWhile_cons] at hc
    by_cases hp : p a = true
    · rw [if_pos hp] at hc; exact ih c hc
    · rw [if_neg hp] at hc
      have : a = c := Option.some.inj hc
      simp only [← this, Bool.not_eq_true] at hp ⊢
      exact hp

theorem dropTrailing_last_not (p : Char → Bool) :
    ∀ (l : List Char) (c : Char), (dropTrailing p l).getLast? = some c → p c = false := by
  intro l
  induction l with
  | nil => intro c hc; simp [dropTrailing] at hc
  | cons a r ih =>
    intro c hc
    simp only [dropTrailing] at hc
    by_cases h : ((dropTrailing p r).isEmpty && p a) = true
    · rw [if_pos h] at hc; simp at hc
    · rw [if_neg h] at hc
      rw [Bool.and_eq_true] at h
      push_neg at h
      rcases he : (dropTrailing p r).isEmpty with _ | _
      · have hne : dropTrailing p r ≠ [] := by
          intro hnil; rw [hnil] at he; simp at he
        rcases hl : (dropTrailing p r).getLast? with _ | d
        · exact absurd (List.getLast?_eq_none_iff.1 hl) hne
        · rw [List.getLast?_cons, hl] at hc
          have hdc : d = c := by simpa using hc
          exact hdc ▸ ih d hl
      · have hpa := h he
        rw [List.isEmpty_iff] at he
        rw [he] at hc
        simp only [List.getLast?_singleton] at hc
        have : a = c := Option.some.inj hc
        simp only [← this, Bool.not_eq_true] at hpa ⊢
        exact hpa

/-- `dropWhile` leaves lists whose head does not satisfy `p` unchanged. -/
theorem dropWhile_of_head_not (p : Char → Bool) (l : List Char)
    (h : ∀ c, l.head? = some c → p c = false) : l.dropWhile p = l := by
  cases l with
  | nil => rfl
  | cons a r =>
    rw [List.dropWhile_cons, if_neg]
    rw [h a rfl]
    simp

/-- `dropTrailing` leaves lists whose last element does not satisfy `p`
unchanged. -/
theorem dropTrailing_of_last_not (p : Char → Bool) :
    ∀ l : List Char, (∀ c, l.getLast? = some c → p c = false) →
    dropTrailing p l = l := by
  intro l
  induction l with
  | nil => intro _; rfl
  | cons a r ih =>
    intro h
    simp only [dropTrailing]
    cases r with
    | nil =>
      have hpa : p a = false := h a rfl
      rw [if_neg]
      · rfl
      · simp [dropTrailing, hpa]
    | cons b r' =>
      have hrne : b :: r' ≠ [] := List.cons_ne_nil b r'
      have htail : dropTrailing p (b :: r') = b :: r' := by
        apply ih
        intro c hc
        apply h c
        rw [List.getLast?_cons, hc]
        rfl
      rw [htail, if_neg]
      rw [Bool.and_eq_true]
      intro hcontra
      rw [List.isEmpty_iff] at hcontra
      exact hrne hcontra.1

/-- `squeezeUnd` leaves lists without double underscores unchanged. -/
theorem squeezeUnd_of_noDouble : ∀ l : List Char, noDouble l = true →
    squeezeUnd l = l := by
  intro l
  induction l with
  | nil => intro _; rfl
  | cons a r ih =>
    intro h
    cases r with
    | nil => rfl
    | cons b r' =>
      simp only [noDouble, Bool.and_eq_true] at h
      simp only [squeezeUnd]
      have hne : ¬ ((a == '_' && b == '_') = true) := by
        intro hcontra
        have hn := h.1
        rw [hcontra] at hn
        simp at hn
      rw [if_neg hne, ih h.2]

/-! ### Preservation of `noDouble` and of alphanumeric witnesses -/

theorem dropTrailing_head (p : Char → Bool) (l : List Char) (c : Char)
    (h : (dropTrailing p l).head? = some c) : l.head? = some c := by
  cases l with
  | nil => simp [dropTrailing] at h
  | cons a r =>
    simp only [dropTrailing] at h
    by_cases hc : ((dropTrailing p r).isEmpty && p a) = true
    · rw [if_pos hc] at h; simp at h
    · rw [if_neg hc] at h
      simpa using h

theorem noDouble_head_pair (a b : Char) (l : List Char)
    (h : noDouble (a :: l) = true) (hb : l.head? = some b) :
    ¬(a = '_' ∧ b = '_') := by
  cases l with
  | nil => simp at hb
  | cons c r =>
    have hcb : c = b := Option.some.inj hb
    simp only [noDouble, Bool.and_eq_true] at h
    intro hcontra
    have hn := h.1
    rw [hcontra.1, hcb, hcontra.2] at hn
    simp at hn

theorem dropWhile_noDouble (p : Char → Bool) :
    ∀ l : List Char, noDouble l = true → noDouble (l.dropWhile p) = true := by
  intro l
  induction l with
  | nil => intro h; exact h
  | cons a r ih =>
    intro h
    rw [List.dropWhile_cons]
    by_cases hp : p a = true
    · rw [if_pos hp]; exact ih (noDouble_tail a r h)
    · rw [if_neg hp]; exact h

theorem dropTrailing_noDouble (p : Char → Bool) :
    ∀ l : List Char, noDouble l = true → noDouble (dropTrailing p l) = true := by
  intro l
  induction l with
  | nil => intro h; exact h
  | cons a r ih =>
    intro h
    simp only [dropTrailing]
    by_cases hc : ((dropTrailing p r).isEmpty && p a) = true
    · rw [if_pos hc]; rfl
    · rw [if_neg hc]
      apply noDouble_cons
      · exact ih (noDouble_tail a r h)
      · intro b hb
        exact noDouble_head_pair a b r h (dropTrailing_head p r b hb)

theorem squeezeUnd_any (P : Char → Bool) (hP : P '_' = false) :
    ∀ l : List Char, l.any P = true → (squeezeUnd l).any P = true := by
  intro l
  induction l with
  | nil => intro h; exact h
  | cons a r ih =>
    cases r with
    | nil => intro h; exact h
    | cons b r' =>
      intro h
      simp only [List.any_cons, Bool.or_eq_true] at h
      simp only [squeezeUnd]
      by_cases hab : (a == '_' && b == '_') = true
      · rw [if_pos hab]
        apply ih
        rcases h with h | h
        · rw [Bool.and_eq_true] at hab
          have ha : a = '_' := eq_of_beq hab.1
          rw [ha, hP] at h
          exact absurd h (by simp)
        · simpa [List.any_cons] using h
      · rw [if_neg hab]
        simp only [List.any_cons, Bool.or_eq_true]
        rcases h with h | h
        · exact Or.inl h
        · right
          have := ih (by simpa [List.any_cons] using h)
          simpa [List.any_cons] using this

theorem dropWhile_any (P p : Char → Bool) (hP : ∀ c, P c = true → p c = false) :
    ∀ l : List Char, l.any P = true → (l.dropWhile p).any P = true := by
  intro l
  induction l with
  | nil => intro h; exact h
  | cons a r ih =>
    intro h
    simp only [List.any_cons, Bool.or_eq_true] at h
    rw [List.dropWhile_cons]
    by_cases hp : p a = true
    · rw [if_pos hp]
      apply ih
      rcases h with h | h
      · rw [hP a h] at hp; exact absurd hp (by simp)
      · exact h
    · rw [if_neg hp]
      simp only [List.any_cons, Bool.or_eq_true]
      exact h

theorem dropTrailing_any (P p : Char → Bool) (hP : ∀ c, P c = true → p c = false) :
    ∀ l : List Char, l.any P = true → (dropTrailing p l).any P = true := by
  intro l
  induction l with
  | nil => intro h; exact h
  | cons a r ih =>
    intro h
    simp only [List.any_cons, Bool.or_eq_true] at h
    simp only [dropTrailing]
    rcases h with h | h
    · rw [if_neg]
      · simp only [List.any_cons, Bool.or_eq_true]; exact Or.inl h
      · rw [Bool.and_eq_true]
        intro hcontra
        rw [hP a h] at hcontra
        exact absurd hcontra.2 (by simp)
    · have ht := ih h
      have hne : (dropTrailing p r).isEmpty = false := by
        rcases he : dropTrailing p r with _ | _
        · rw [he] at ht; simp at ht
        · rfl
      rw [if_neg]
      · simp only [List.any_cons, Bool.or_eq_true]; exact Or.inr ht
      · rw [Bool.and_eq_true, hne]
        intro hcontra
        exact absurd hcontra.1 (by simp)

/-! ### Characters of the normalized output are fixed by every pass -/

theorem isIdentChar_replaceNon (c : Char) : isIdentChar (replaceNon c) = true := by
  unfold replaceNon
  by_cases h : isLowerAlnum c = true
  · rw [if_pos h]; unfold isIdentChar; rw [h]; rfl
  · rw [if_neg h]; rfl

theorem isIdentChar_toNat (c : Char) (h : isIdentChar c = true) :
    (97 ≤ c.toNat ∧ c.toNat ≤ 122) ∨ (48 ≤ c.toNat ∧ c.toNat ≤ 57) ∨ c.toNat = 95 := by
  unfold isIdentChar isLowerAlnum at h
  simp only [Bool.or_eq_true, Bool.and_eq_true, decide_eq_true_iff, beq_iff_eq] at h
  rcases h with (h | h) | h
  · exact Or.inl h
  · exact Or.inr (Or.inl h)
  · exact Or.inr (Or.inr (by rw [h]; rfl))

theorem pyToLower_fix (c : Char) (h : isIdentChar c = true) : pyToLower c = c := by
  unfold pyToLower
  rw [if_neg]
  have := isIdentChar_toNat c h
  simp only [Bool.and_eq_true, decide_eq_true_iff]
  omega

theorem replaceNon_fix (c : Char) (h : isIdentChar c = true) : replaceNon c = c := by
  unfold replaceNon
  by_cases hl : isLowerAlnum c = true
  · rw [if_pos hl]
  · rw [if_neg hl]
    unfold isIdentChar at h
    rw [Bool.or_eq_true] at h
    rcases h with h' | h'
    · exact absurd h' hl
    · exact (eq_of_beq h').symm

theorem map_fix {f : Char → Char} :
    ∀ l : List Char, (∀ c ∈ l, f c = c) → l.map f = l := by
  intro l
  induction l with
  | nil => intro _; rfl
  | cons a r ih =>
    intro h
    simp only [List.map_cons]
    rw [h a (List.mem_cons_self a r), ih (fun c hc => h c (List.mem_cons_of_mem a hc))]

/-! ### Invariants of `normalizeCore` and `define_record_name` -/

theorem normalizeCore_all (s : List Char) :
    (normalizeCore s).all isIdentChar = true := by
  apply stripBoth_all
  apply squeezeUnd_all
  rw [List.all_eq_true]
  intro c hc
  rcases List.mem_map.1 hc with ⟨d, _, hd⟩
  rw [← hd]
  exact isIdentChar_replaceNon d

theorem normalizeCore_noDouble (s : List Char) :
    noDouble (normalizeCore s) = true := by
  unfold normalizeCore stripBoth
  apply dropTrailing_noDouble
  apply dropWhile_noDouble
  exact squeezeUnd_noDouble _

theorem normalizeCore_head (s : List Char) (c : Char)
    (h : (normalizeCore s).head? = some c) : c ≠ '_' := by
  unfold normalizeCore stripBoth at h
  have h2 := dropTrailing_head _ _ _ h
  have h3 := dropWhile_head_not (· == '_') _ c h2
  simpa using h3

theorem normalizeCore_last (s : List Char) (c : Char)
    (h : (normalizeCore s).getLast? = some c) : c ≠ '_' := by
  unfold normalizeCore stripBoth at h
  have h3 := dropTrailing_last_not (· == '_') _ c h
  simpa using h3

/-- `normalizeCore` fixes any list satisfying its own output invariants. -/
theorem normalizeCore_fix (l : List Char)
    (hall : l.all isIdentChar = true)
    (hnd : noDouble l = true)
    (hhead : ∀ c, l.head? = some c → c ≠ '_')
    (hlast : ∀ c, l.getLast? = some c → c ≠ '_') :
    normalizeCore l = l := by
  unfold normalizeCore stripBoth
  have hmem : ∀ c ∈ l, isIdentChar c = true := List.all_eq_true.1 hall
  have h1 : l.map pyToLower = l := map_fix l (fun c hc => pyToLower_fix c (hmem c hc))
  have h2 : l.map replaceNon = l := map_fix l (fun c hc => replaceNon_fix c (hmem c hc))
  rw [h1, h2, squeezeUnd_of_noDouble l hnd]
  rw [dropWhile_of_head_not _ l (fun c hc => by
    have := hhead c hc
    simpa using this)]
  rw [dropTrailing_of_last_not _ l (fun c hc => by
    have := hlast c hc
    simpa using this)]

theorem startsWithDigit_of_head (l : List Char) (c : Char)
    (h : l.head? = some c) : startsWithDigit l = isDigitChar c := by
  cases l with
  | nil => simp at h
  | cons a r =>
    have : a = c := Option.some.inj h
    rw [← this]; rfl

theorem define_record_name_all (s : List Char) :
    (define_record_name s).all isIdentChar = true := by
  unfold define_record_name
  by_cases hd : startsWithDigit (normalizeCore s) = true
  · rw [if_pos hd]
    simp only [List.all_cons, Bool.and_eq_true]
    exact ⟨rfl, rfl, normalizeCore_all s⟩
  · rw [if_neg hd]
    exact normalizeCore_all s

theorem define_record_name_head_not_digit (s : List Char) (c : Char)
    (h : (define_record_name s).head? = some c) : isDigitChar c = false := by
  unfold define_record_name at h
  by_cases hd : startsWithDigit (normalizeCore s) = true
  · rw [if_pos hd] at h
    have : 'c' = c := Option.some.inj h
    rw [← this]; rfl
  · rw [if_neg hd] at h
    rw [startsWithDigit_of_head _ c h] at hd
    simpa using hd

theorem define_record_name_head_not_und (s : List Char) (c : Char)
    (h : (define_record_name s).head? = some c) : c ≠ '_' := by
  unfold define_record_name at h
  by_cases hd : startsWithDigit (normalizeCore s) = true
  · rw [if_pos hd] at h
    have : 'c' = c := Option.some.inj h
    rw [← this]; decide
  · rw [if_neg hd] at h
    exact normalizeCore_head s c h

theorem define_record_name_last_not_und (s : List Char) (c : Char)
    (h : (define_record_name s).getLast? = some c) : c ≠ '_' := by
  unfold define_record_name at h
  by_cases hd : startsWithDigit (normalizeCore s) = true
  · rw [if_pos hd] at h
    rcases hc : normalizeCore s with _ | ⟨d, t⟩
    · rw [hc] at hd; simp [startsWithDigit] at hd
    · rw [hc] at h
      rw [List.getLast?_cons_cons, List.getLast?_cons_cons] at h
      rw [← hc] at h
      exact normalizeCore_last s c h
  · rw [if_neg hd] at h
    exact normalizeCore_last s c h

theorem define_record_name_noDouble (s : List Char) :
    noDouble (define_record_name s) = true := by
  unfold define_record_name
  by_cases hd : startsWithDigit (normalizeCore s) = true
  · rw [if_pos hd]
    apply noDouble_cons
    · apply noDouble_cons
      · exact normalizeCore_noDouble s
      · intro b hb
        intro hcontra
        exact normalizeCore_head s b hb hcontra.2
    · intro b hb
      intro hcontra
      exact absurd hcontra.1 (by decide)
  · rw [if_neg hd]
    exact normalizeCore_noDouble s

theorem startsWithDigit_define_record_name (s : List Char) :
    startsWithDigit (define_record_name s) = false := by
  cases hh : (define_record_name s).head? with
  | none =>
    rw [List.head?_eq_none_iff] at hh
    rw [hh]; rfl
  | some c =>
    rw [startsWithDigit_of_head _ c hh]
    exact define_record_name_head_not_digit s c hh

/-- `define_record_name` is idempotent. -/
theorem define_record_name_idem (s : List Char) :
    define_record_name (define_record_name s) = define_record_name s := by
  have hcore : normalizeCore (define_record_name s) = define_record_name s :=
    normalizeCore_fix _ (define_record_name_all s) (define_record_name_noDouble s)
      (define_record_name_head_not_und s) (define_record_name_last_not_und s)
  have hdig := startsWithDigit_define_record_name s
  set r := define_record_name s with hr
  show define_record_name r = r
  unfold define_record_name
  rw [hcore, hdig]
  simp

theorem isLowerAlnum_replaceNon (c : Char) (h : isLowerAlnum c = true) :
    isLowerAlnum (replaceNon c) = true := by
  unfold replaceNon
  rw [if_pos h]
  exact h

theorem isLowerAlnum_ne_und (c : Char) (h : isLowerAlnum c = true) :
    (c == '_') = false := by
  by_cases hc : c = '_'
  · rw [hc] at h; exact absurd h (by decide)
  · simpa using hc

/-- A raw label containing a character that lowercases into `[a-z0-9]`
normalizes to a non-empty identifier. -/
theorem define_record_name_nonempty (s : List Char)
    (h : s.any (fun c => isLowerAlnum (pyToLower c)) = true) :
    matchesIdentRegex (define_record_name s) = true := by
  have h1 : ((s.map pyToLower).map replaceNon).any isLowerAlnum = true := by
    rw [List.any_eq_true]
    rw [List.any_eq_true] at h
    rcases h with ⟨c, hc, hP⟩
    refine ⟨replaceNon (pyToLower c), ?_, isLowerAlnum_replaceNon _ hP⟩
    exact List.mem_map.2 ⟨pyToLower c, List.mem_map.2 ⟨c, hc, rfl⟩, rfl⟩
  have h2 : (normalizeCore s).any isLowerAlnum = true := by
    unfold normalizeCore stripBoth
    apply dropTrailing_any _ _ isLowerAlnum_ne_und
    apply dropWhile_any _ _ isLowerAlnum_ne_und
    exact squeezeUnd_any _ (by decide) _ h1
  have hne : normalizeCore s ≠ [] := by
    intro hnil
    rw [hnil] at h2
    simp at h2
  unfold matchesIdentRegex
  rw [Bool.and_eq_true]
  constructor
  · unfold define_record_name
    by_cases hd : startsWithDigit (normalizeCore s) = true
    · rw [if_pos hd]; rfl
    · rw [if_neg hd]
      simpa [List.isEmpty_iff] using hne
  · exact define_record_name_all s

/-! ### The chunk splitter: loop invariant and shape lemmas -/

theorem numberFrom_length {α : Type} :
    ∀ (l : List α) (n : Nat), (numberFrom n l).length = l.length := by
  intro l
  induction l with
  | nil => intro n; rfl
  | cons a r ih =>
    intro n
    simp only [numberFrom, List.length_cons, ih (n + 1)]

theorem numberFrom_get? {α : Type} :
    ∀ (l : List α) (n i : Nat),
    (numberFrom n l).get? i = (l.get? i).map (fun a => (n + i, a)) := by
  intro l
  induction l with
  | nil => intro n i; cases i <;> rfl
  | cons a r ih =>
    intro n i
    cases i with
    | zero => rfl
    | succ j =>
      simp only [numberFrom, List.get?_cons_succ]
      rw [ih (n + 1) j]
      have : n + 1 + j = n + (j + 1) := by omega
      rw [this]

theorem numberFrom_append {α : Type} :
    ∀ (l₁ l₂ : List α) (n : Nat),
    numberFrom n (l₁ ++ l₂) = numberFrom n l₁ ++ numberFrom (n + l₁.length) l₂ := by
  intro l₁
  induction l₁ with
  | nil => intro l₂ n; simp [numberFrom]
  | cons a r ih =>
    intro l₂ n
    show (n, a) :: numberFrom (n + 1) (r ++ l₂)
        = (n, a) :: (numberFrom (n + 1) r ++ numberFrom (n + (r.length + 1)) l₂)
    rw [ih l₂ (n + 1)]
    have : n + 1 + r.length = n + (r.length + 1) := by omega
    rw [this]

theorem numberFrom_map_shift {α : Type} :
    ∀ (l : List α) (n m : Nat),
    (numberFrom n l).map (fun jr => (jr.1 + m, jr.2)) = numberFrom (n + m) l := by
  intro l
  induction l with
  | nil => intro n m; rfl
  | cons a r ih =>
    intro n m
    simp only [numberFrom, List.map_cons, ih (n + 1) m]
    have : n + 1 + m = n + m + 1 := by omega
    rw [this]

theorem chunkSpec_of_lt {α : Type} (k : Nat) (hk : 0 < k) (rows : List α)
    (h : rows.length < k) : chunkSpec k rows = [rows] := by
  rw [chunkSpec]
  rw [dif_neg (by omega : ¬ k = 0), dif_pos h]

theorem chunkSpec_of_ge {α : Type} (k : Nat) (hk : 0 < k) (rows : List α)
    (h : ¬ rows.length < k) :
    chunkSpec k rows = rows.take k :: chunkSpec k (rows.drop k) := by
  rw [chunkSpec]
  rw [dif_neg (by omega : ¬ k = 0), dif_neg h]

theorem chunkCont_nil_left {α : Type} (k : Nat) (hk : 0 < k) (rows : List α) :
    chunkCont k [] rows = chunkSpec k rows := by
  unfold chunkCont
  simp only [List.length_nil, Nat.sub_zero, List.nil_append]
  by_cases h : rows.length < k
  · rw [if_pos h, chunkSpec_of_lt k hk rows h]
  · rw [if_neg h, chunkSpec_of_ge k hk rows h]

theorem chunkCont_shift {α : Type} (k : Nat) (cur : List α) (r : α) (rs : List α)
    (h : cur.length + 1 < k) :
    chunkCont k cur (r :: rs) = chunkCont k (cur ++ [r]) rs := by
  unfold chunkCont
  have hlen : (cur ++ [r]).length = cur.length + 1 := by simp
  have hsub : k - cur.length = (k - (cur.length + 1)) + 1 := by omega
  rw [hlen]
  by_cases hc : rs.length < k - (cur.length + 1)
  · rw [if_pos hc, if_pos (by simp only [List.length_cons]; omega)]
    simp
  · rw [if_neg hc, if_neg (by simp only [List.length_cons]; omega)]
    rw [hsub]
    simp only [List.take_succ_cons, List.drop_succ_cons]
    simp

theorem chunkCont_roll {α : Type} (k : Nat) (cur : List α) (r : α) (rs : List α)
    (h : cur.length + 1 = k) :
    chunkCont k cur (r :: rs) = (cur ++ [r]) :: chunkSpec k rs := by
  unfold chunkCont
  have hsub : k - cur.length = 1 := by omega
  rw [hsub]
  rw [if_neg (by simp only [List.length_cons]; omega)]
  simp only [List.take_succ_cons, List.take_zero, List.drop_succ_cons, List.drop_zero]

/-- The loop invariant of `break_stream`: starting the loop at global row
number `q * k + cur.length + 1` with partial chunk `cur` and suffix `s`
produces exactly the reference chunking, numbered from `s`. -/
theorem breakLoop_eq_chunkCont {α : Type} (k : Nat) (hk : 0 < k) :
    ∀ (rows : List α) (q : Nat) (cur : List α) (s : Nat), cur.length < k →
    breakLoop k rows (q * k + cur.length + 1) cur s = numberFrom s (chunkCont k cur rows) := by
  intro rows
  induction rows with
  | nil =>
    intro q cur s hcur
    unfold breakLoop chunkCont
    rw [if_pos (by simp only [List.length_nil]; omega)]
    simp [numberFrom]
  | cons r rs ih =>
    intro q cur s hcur
    show (if (q * k + cur.length + 1) % k == 0 then
            (s, cur ++ [r]) :: breakLoop k rs (q * k + cur.length + 1 + 1) [] (s + 1)
          else breakLoop k rs (q * k + cur.length + 1 + 1) (cur ++ [r]) s)
        = numberFrom s (chunkCont k cur (r :: rs))
    by_cases hc : cur.length + 1 = k
    · have hmod : (q * k + cur.length + 1) % k = 0 := by
        have : q * k + cur.length + 1 = (q + 1) * k := by
          rw [Nat.add_mul, Nat.one_mul]
          omega
        rw [this]
        exact Nat.mul_mod_left (q + 1) k
      rw [if_pos (by rw [hmod]; rfl)]
      have harg : q * k + cur.length + 1 + 1 = (q + 1) * k + ([] : List α).length + 1 := by
        rw [Nat.add_mul, Nat.one_mul]
        simp only [List.length_nil]
        omega
      rw [harg, ih (q + 1) [] (s + 1) (by simpa using hk)]
      rw [chunkCont_nil_left k hk rs, chunkCont_roll k cur r rs hc]
      rfl
    · have hlt : cur.length + 1 < k := by omega
      have hmod : (q * k + cur.length + 1) % k = cur.length + 1 := by
        have : q * k + cur.length + 1 = (cur.length + 1) + q * k := by omega
        rw [this, Nat.add_mul_mod_self_right]
        exact Nat.mod_eq_of_lt hlt
      rw [if_neg (by rw [hmod]; simp)]
      have harg : q * k + cur.length + 1 + 1 = q * k + (cur ++ [r]).length + 1 := by
        simp only [List.length_append, List.length_cons, List.length_nil]
        omega
      rw [harg, ih q (cur ++ [r]) s (by simp only [List.length_append, List.length_cons, List.length_nil]; omega)]
      rw [chunkCont_shift k cur r rs hlt]

/-- `break_stream` produces exactly the reference chunking, tagged with
consecutive suffix indices from 0. -/
theorem break_stream_eq_chunkSpec {α : Type} (rows : List α) (k : Nat) (hk : 0 < k) :
    break_stream rows k = numberFrom 0 (chunkSpec k rows) := by
  unfold break_stream
  have h1 : (1 : Nat) = 0 * k + ([] : List α).length + 1 := by simp
  rw [h1, breakLoop_eq_chunkCont k hk rows 0 [] 0 (by simpa using hk)]
  rw [chunkCont_nil_left k hk rows]

theorem chunkSpec_length {α : Type} (k : Nat) (hk : 0 < k) :
    ∀ (rows : List α), (chunkSpec k rows).length = rows.length / k + 1 := by
  intro rows
  generalize hn : rows.length = n
  induction n using Nat.strong_induction_on generalizing rows with
  | _ n ih =>
    by_cases h : rows.length < k
    · rw [chunkSpec_of_lt k hk rows h]
      rw [← hn, Nat.div_eq_of_lt h]
      rfl
    · rw [chunkSpec_of_ge k hk rows h]
      simp only [List.length_cons]
      have hdl : (rows.drop k).length = rows.length - k := by
        rw [List.length_drop]
      rw [ih (rows.drop k).length (by rw [hdl]; omega) (rows.drop k) rfl]
      rw [hdl, ← hn]
      have hsum : rows.length / k = (rows.length - k) / k + 1 :=
        Nat.div_eq_sub_div hk (by omega)
      omega

theorem chunkSpec_get? {α : Type} (k : Nat) (hk : 0 < k) :
    ∀ (rows : List α) (i : Nat), i < rows.length / k + 1 →
    (chunkSpec k rows).get? i = some ((rows.drop (i * k)).take k) := by
  intro rows
  generalize hn : rows.length = n
  induction n using Nat.strong_induction_on generalizing rows with
  | _ n ih =>
    intro i hi
    by_cases h : rows.length < k
    · rw [chunkSpec_of_lt k hk rows h]
      have hdiv : n / k = 0 := by
        rw [← hn]
        exact Nat.div_eq_of_lt h
      have hi0 : i = 0 := by omega
      rw [hi0]
      simp only [Nat.zero_mul, List.drop_zero, List.get?_cons_zero]
      rw [List.take_of_length_le (by omega)]
    · rw [chunkSpec_of_ge k hk rows h]
      cases i with
      | zero =>
        simp only [Nat.zero_mul, List.drop_zero, List.get?_cons_zero]
      | succ j =>
        simp only [List.get?_cons_succ]
        have hdl : (rows.drop k).length = rows.length - k := by
          rw [List.length_drop]
        have hdiv : n / k = (rows.length - k) / k + 1 := by
          rw [← hn]
          exact Nat.div_eq_sub_div hk (by omega)
        rw [ih (rows.drop k).length (by rw [hdl]; omega) (rows.drop k) rfl j
          (by rw [hdl]; omega)]
        rw [List.drop_drop]
        have hkj : k + j * k = (j + 1) * k := by ring
        rw [hkj]

theorem break_stream_length {α : Type} (rows : List α) (k : Nat) (hk : 0 < k) :
    (break_stream rows k).length = rows.length / k + 1 := by
  rw [break_stream_eq_chunkSpec rows k hk, numberFrom_length, chunkSpec_length k hk]

theorem break_stream_get? {α : Type} (rows : List α) (k : Nat) (i : Nat)
    (hk : 0 < k) (hi : i < rows.length / k + 1) :
    (break_stream rows k).get? i = some (i, (rows.drop (i * k)).take k) := by
  rw [break_stream_eq_chunkSpec rows k hk, numberFrom_get?,
    chunkSpec_get? k hk rows i hi]
  simp

/-! ## Claim C10: shape of the chunk files created by `break_stream` -/

/-- C10: for `N` input rows and chunk size `k ≥ 1`, `break_stream` creates
exactly `N / k + 1` chunks; chunk `#0` exists even for an empty input
(holding the first `min k N` rows); when `k` divides `N` the last chunk is
empty; and every chunk except possibly the last two holds exactly `k`
rows (in fact all but the last do). -/
theorem c10_break_stream_shape {α : Type} (rows : List α) (k : Nat) (hk : 1 ≤ k) :
    (break_stream rows k).length = rows.length / k + 1 ∧
    (break_stream rows k).get? 0 = some (0, rows.take k) ∧
    (k ∣ rows.length →
      (break_stream rows k).getLast? = some (rows.length / k, [])) ∧
    (∀ i, i + 2 ≤ (break_stream rows k).length →
      ∃ c, (break_stream rows k).get? i = some (i, c) ∧ c.length = k) := by
  have hk0 : 0 < k := hk
  refine ⟨break_stream_length rows k hk0, ?_, ?_, ?_⟩
  · have h := break_stream_get? rows k 0 hk0 (Nat.succ_pos _)
    simpa using h
  · intro hdvd
    have hlen := break_stream_length rows k hk0
    have hlast : (break_stream rows k).getLast? =
        (break_stream rows k).get? ((break_stream rows k).length - 1) := by
      rw [List.getLast?_eq_get?]
    rw [hlast, hlen]
    simp only [Nat.add_sub_cancel]
    rw [break_stream_get? rows k (rows.length / k) hk0 (Nat.lt_succ_self _)]
    rw [Nat.div_mul_cancel hdvd]
    rw [List.drop_length]
    simp
  · intro i hi
    rw [break_stream_length rows k hk0] at hi
    have hik : i + 1 ≤ rows.length / k := Nat.le_of_succ_le_succ hi
    refine ⟨(rows.drop (i * k)).take k,
      break_stream_get? rows k i hk0 (Nat.lt_succ_of_lt hik), ?_⟩
    have hmul : (i + 1) * k ≤ rows.length := by
      calc (i + 1) * k ≤ (rows.length / k) * k := Nat.mul_le_mul_right k hik
        _ ≤ rows.length := Nat.div_mul_le_self rows.length k
    rw [List.length_take, List.length_drop]
    have hexp : (i + 1) * k = i * k + k := by ring
    omega

/-- Witness for C10: 4 rows split with `k = 2` give 3 chunks; `2 ∣ 4` so
the last chunk is empty; chunk 0 holds exactly 2 rows. -/
theorem c10_break_stream_shape_witness :
    (break_stream ["a", "b", "c", "d"] 2).length = 4 / 2 + 1 ∧
    (break_stream ["a", "b", "c", "d"] 2).getLast? = some (2, []) ∧
    (∃ c, (break_stream ["a", "b", "c", "d"] 2).get? 0 = some (0, c) ∧ c.length = 2) :=
  ⟨(c10_break_stream_shape ["a", "b", "c", "d"] 2 (by decide)).1,
   (c10_break_stream_shape ["a", "b", "c", "d"] 2 (by decide)).2.2.1 (by decide),
   (c10_break_stream_shape ["a", "b", "c", "d"] 2 (by decide)).2.2.2 0 (by decide)⟩

/-! ### Numerals, `rsplit` and the row-number reconstruction -/

theorem digitToChar_isDigit (n : Nat) : isDigitChar (digitToChar n) = true := by
  rcases n with _ | _ | _ | _ | _ | _ | _ | _ | _ | n
  · decide
  · decide
  · decide
  · decide
  · decide
  · decide
  · decide
  · decide
  · decide
  · show isDigitChar '9' = true
    decide

theorem digitVal_digitToChar (n : Nat) (h : n < 10) :
    digitVal (digitToChar n) = n := by
  interval_cases n <;> decide

theorem natReprAux_all (fuel : Nat) :
    ∀ n, n < fuel → (natReprAux fuel n).all isDigitChar = true := by
  induction fuel with
  | zero => intro n hn; omega
  | succ f ih =>
    intro n hn
    simp only [natReprAux]
    by_cases h : n < 10
    · rw [if_pos h]
      simp [digitToChar_isDigit n]
    · rw [if_neg h]
      rw [List.all_append]
      have hdiv : n / 10 < f := by
        have h1 : n / 10 < n := Nat.div_lt_self (by omega) (by omega)
        omega
      rw [ih (n / 10) hdiv]
      simp [digitToChar_isDigit (n % 10)]

theorem natRepr_all (n : Nat) : (natRepr n).all isDigitChar = true :=
  natReprAux_all (n + 1) n (Nat.lt_succ_self n)

theorem parseDigits_append (l : List Char) (c : Char) :
    parseDigits (l ++ [c]) = (parseDigits l) * 10 + digitVal c := by
  unfold parseDigits
  rw [List.foldl_append]
  rfl

theorem parseDigits_natReprAux (fuel : Nat) :
    ∀ n, n < fuel → parseDigits (natReprAux fuel n) = n := by
  induction fuel with
  | zero => intro n hn; omega
  | succ f ih =>
    intro n hn
    simp only [natReprAux]
    by_cases h : n < 10
    · rw [if_pos h]
      show 0 * 10 + digitVal (digitToChar n) = n
      rw [digitVal_digitToChar n h]
      omega
    · rw [if_neg h]
      rw [parseDigits_append]
      have hdiv : n / 10 < f := by
        have h1 : n / 10 < n := Nat.div_lt_self (by omega) (by omega)
        omega
      rw [ih (n / 10) hdiv, digitVal_digitToChar (n % 10) (Nat.mod_lt n (by omega))]
      omega

theorem parseDigits_natRepr (n : Nat) : parseDigits (natRepr n) = n :=
  parseDigits_natReprAux (n + 1) n (Nat.lt_succ_self n)

theorem isDigitChar_ne_hash (c : Char) (h : isDigitChar c = true) :
    (c == '#') = false := by
  by_cases hc : c = '#'
  · rw [hc] at h
    exact absurd h (by decide)
  · simpa using hc

theorem natRepr_no_hash (n : Nat) :
    (natRepr n).all (fun c => !(c == '#')) = true := by
  rw [List.all_eq_true]
  intro c hc
  have h := List.all_eq_true.1 (natRepr_all n) c hc
  simp only [Bool.not_eq_true']
  exact isDigitChar_ne_hash c h

theorem rsplitHashAux_none (l : List Char)
    (h : l.all (fun c => !(c == '#')) = true) : rsplitHashAux l = none := by
  induction l with
  | nil => rfl
  | cons a r ih =>
    simp only [List.all_cons, Bool.and_eq_true] at h
    simp only [rsplitHashAux]
    rw [ih h.2]
    rw [if_neg]
    have := h.1
    simp only [Bool.not_eq_true'] at this
    simp [this]

theorem rsplitHashAux_append (suf : List Char) (hsuf : rsplitHashAux suf = none) :
    ∀ base : List Char, rsplitHashAux (base ++ '#' :: suf) = some (base, suf) := by
  intro base
  induction base with
  | nil =>
    simp only [List.nil_append, rsplitHashAux]
    rw [hsuf]
    rfl
  | cons c rest ih =>
    show (match rsplitHashAux (rest ++ '#' :: suf) with
          | some p => some (c :: p.1, p.2)
          | none => if (c == '#') = true then some ([], rest ++ '#' :: suf) else none)
        = some (c :: rest, suf)
    rw [ih]

theorem rsplitHash_chunkName (base : List Char) (i : Nat) :
    rsplitHash (chunkName base i) = (base, natRepr i) := by
  unfold rsplitHash chunkName
  rw [rsplitHashAux_append (natRepr i) (rsplitHashAux_none _ (natRepr_no_hash i)) base]

theorem filter_no_hash (l : List Char) (h : l.all isDigitChar = true) :
    l.filter (fun c => !(c == '#')) = l := by
  rw [List.filter_eq_self]
  intro c hc
  simp only [Bool.not_eq_true']
  exact isDigitChar_ne_hash c (List.all_eq_true.1 h c hc)

/-- Reconstructing the dedup key from a chunk's file name recovers the
original base name and the global row number `local + index * k`. -/
theorem reconstruct_chunkName (base : List Char) (i k j : Nat) :
    reconstruct (chunkName base i) k j = (base, j + i * k) := by
  unfold reconstruct
  rw [rsplitHash_chunkName base i]
  simp only
  rw [filter_no_hash _ (natRepr_all i), parseDigits_natRepr i]

theorem numberFrom_map_base {α : Type} (base : List Char) :
    ∀ (l : List α) (n m : Nat),
    (numberFrom n l).map (fun jr => ((base, jr.1 + m), jr.2))
      = (numberFrom (n + m) l).map (fun jr => ((base, jr.1), jr.2)) := by
  intro l
  induction l with
  | nil => intro n m; rfl
  | cons a r ih =>
    intro n m
    simp only [numberFrom, List.map_cons]
    rw [ih (n + 1) m]
    have : n + 1 + m = n + m + 1 := by omega
    rw [this]

/-- Flattening the named chunking with `charge_stream`'s key
reconstruction yields the rows numbered consecutively from `q * k + 1`. -/
theorem flatChunksBase {α : Type} (base : List Char) (k : Nat) (hk : 0 < k) :
    ∀ (rows : List α) (q : Nat),
    (((numberFrom q (chunkSpec k rows)).map
        (fun ic => (chunkName base ic.1, ic.2))).flatMap
      (fun nc => (numberFrom 1 nc.2).map (fun jr => (reconstruct nc.1 k jr.1, jr.2))))
    = (numberFrom (q * k + 1) rows).map (fun jr => ((base, jr.1), jr.2)) := by
  intro rows
  generalize hn : rows.length = n
  induction n using Nat.strong_induction_on generalizing rows with
  | _ n ih =>
    intro q
    have hf : (fun jr : Nat × α => (reconstruct (chunkName base q) k jr.1, jr.2))
        = fun jr => ((base, jr.1 + q * k), jr.2) := by
      funext jr
      rw [reconstruct_chunkName]
    by_cases h : rows.length < k
    · rw [chunkSpec_of_lt k hk rows h]
      show (numberFrom 1 rows).map (fun jr => (reconstruct (chunkName base q) k jr.1, jr.2)) ++ []
          = (numberFrom (q * k + 1) rows).map (fun jr => ((base, jr.1), jr.2))
      rw [List.append_nil, hf, numberFrom_map_base base rows 1 (q * k)]
      have : 1 + q * k = q * k + 1 := by omega
      rw [this]
    · rw [chunkSpec_of_ge k hk rows h]
      show (numberFrom 1 (rows.take k)).map
            (fun jr => (reconstruct (chunkName base q) k jr.1, jr.2))
          ++ (((numberFrom (q + 1) (chunkSpec k (rows.drop k))).map
              (fun ic => (chunkName base ic.1, ic.2))).flatMap
            (fun nc => (numberFrom 1 nc.2).map (fun jr => (reconstruct nc.1 k jr.1, jr.2))))
          = (numberFrom (q * k + 1) rows).map (fun jr => ((base, jr.1), jr.2))
      have hdl : (rows.drop k).length = rows.length - k := by
        rw [List.length_drop]
      rw [ih (rows.drop k).length (by rw [hdl]; omega) (rows.drop k) rfl (q + 1)]
      rw [hf, numberFrom_map_base base (rows.take k) 1 (q * k)]
      have hsplit : rows = rows.take k ++ rows.drop k := (List.take_append_drop k rows).symm
      conv_rhs => rw [hsplit]
      rw [numberFrom_append, List.map_append]
      have htk : (rows.take k).length = k := by
        rw [List.length_take]
        omega
      rw [htk]
      have h1 : 1 + q * k = q * k + 1 := by omega
      have h2 : (q + 1) * k + 1 = q * k + 1 + k := by ring
      rw [h1, h2]

/-! ## Claim C2: chunk-and-reconstruct round trip -/

/-- C2: splitting a file with `break_stream` and reconstructing, for every
row of every chunk, the pair (filename, `chunk_index * k +
local_row_number`) — the chunk index parsed back out of the `#<index>`
name suffix exactly as `charge_stream` does — yields the original file
name and the numbers `1..N` in original order: no gaps, no overlaps, and
each row's reconstructed number is its position in the original file. -/
theorem c2_round_trip {α : Type} (base : List Char) (rows : List α) (k : Nat)
    (hk : 1 ≤ k) :
    reconstructedRows base rows k
      = (numberFrom 1 rows).map (fun jr => ((base, jr.1), jr.2)) := by
  unfold reconstructedRows break_stream_named
  rw [break_stream_eq_chunkSpec rows k hk]
  have h := flatChunksBase base k hk rows 0
  simpa using h

/-- Witness for C2: three rows, chunk size 2. -/
theorem c2_round_trip_witness :
    reconstructedRows ("in.txt".toList) ["r1", "r2", "r3"] 2
      = (numberFrom 1 ["r1", "r2", "r3"]).map (fun jr => (("in.txt".toList, jr.1), jr.2)) :=
  c2_round_trip ("in.txt".toList) ["r1", "r2", "r3"] 2 (by decide)

/-! ## Claim C4: the name normalizer's contract -/

/-- C4 counterexample: the label `"!!!"` is non-empty, yet
`define_record_name` returns the empty string, which matches neither
`^[a-z0-9_]+$` nor any valid identifier, refuting the claim that every
non-empty input yields a valid identifier. -/
theorem c4_counterexample_bang_label :
    "!!!".toList ≠ ([] : List Char) ∧
    define_record_name ("!!!".toList) = [] ∧
    matchesIdentRegex (define_record_name ("!!!".toList)) = false :=
  ⟨by decide, by decide, by decide⟩

/-- C4 (amended): for every raw label the normalized identifier consists
only of `[a-z0-9_]` characters (it matches `^[a-z0-9_]*$`, possibly
empty), never starts with a digit, and normalizing twice equals
normalizing once; whenever the input has at least one character that
lowercases into `[a-z0-9]`, the result is non-empty, i.e. a valid
identifier matching `^[a-z0-9_]+$`. -/
theorem c4_normalizer_contract (s : List Char) :
    (define_record_name s).all isIdentChar = true ∧
    startsWithDigit (define_record_name s) = false ∧
    define_record_name (define_record_name s) = define_record_name s ∧
    (s.any (fun c => isLowerAlnum (pyToLower c)) = true →
      matchesIdentRegex (define_record_name s) = true) :=
  ⟨define_record_name_all s, startsWithDigit_define_record_name s,
   define_record_name_idem s, define_record_name_nonempty s⟩

/-- Witness for C4 at the concrete label `"9 Lives!"` (which normalizes
to `c_9_lives`). -/
theorem c4_normalizer_contract_witness :
    define_record_name (define_record_name ("9 Lives!".toList)) =
      define_record_name ("9 Lives!".toList) ∧
    matchesIdentRegex (define_record_name ("9 Lives!".toList)) = true :=
  ⟨(c4_normalizer_contract ("9 Lives!".toList)).2.2.1,
   (c4_normalizer_contract ("9 Lives!".toList)).2.2.2 (by decide)⟩

/-! ### The decoder's all-zero-sentinel branch -/

theorem stripBoth_eq_nil_of_all (p : Char → Bool) (l : List Char)
    (h : l.all p = true) : stripBoth p l = [] := by
  unfold stripBoth
  have hd : l.dropWhile p = [] := by
    induction l with
    | nil => rfl
    | cons a r ih =>
      simp only [List.all_cons, Bool.and_eq_true] at h
      rw [List.dropWhile_cons, if_pos h.1]
      exact ih h.2
  rw [hd]
  rfl

/-- The guarded first branch of the decoder's `match`: a date/time/datetime
field whose stripped value is all zeros yields `None` without any parse. -/
theorem decode_field_zero_sentinel (row : List Char) (f : FieldSpec)
    (htype : f.ftype = FType.date ∨ f.ftype = FType.time ∨ f.ftype = FType.datetime)
    (hzero : (stripBoth isPySpace (pySlice row (f.fbegin - 1) f.fend)).all (· == '0') = true) :
    decode_field row f = PyVal.vnone := by
  simp only [decode_field]
  rw [if_pos]
  rw [Bool.and_eq_true]
  constructor
  · rcases htype with h | h | h <;> rw [h] <;> rfl
  · rw [stripBoth_eq_nil_of_all _ _ hzero]
    rfl

/-! ## Claim C9: all-zero date/time/datetime values decode to null -/

/-- C9: a date, time or datetime field whose trimmed value consists only
of `0` characters decodes to null (no parse is attempted: the sentinel
branch fires before any `strptime` case), and `decode_record` records that
null for the field. -/
theorem c9_all_zero_dates_null (row : List Char)
    (cfg : List (List Char × FieldSpec)) (hne : cfg ≠ [])
    (key : List Char) (f : FieldSpec) (hmem : (key, f) ∈ cfg)
    (htype : f.ftype = FType.date ∨ f.ftype = FType.time ∨ f.ftype = FType.datetime)
    (hzero : (stripBoth isPySpace (pySlice row (f.fbegin - 1) f.fend)).all (· == '0') = true) :
    decode_field row f = PyVal.vnone ∧
    decode_record row (some cfg)
      = some (cfg.map (fun kv => (kv.1, decode_field row kv.2))) ∧
    (key, PyVal.vnone) ∈ cfg.map (fun kv => (kv.1, decode_field row kv.2)) := by
  have h1 := decode_field_zero_sentinel row f htype hzero
  refine ⟨h1, ?_, ?_⟩
  · show (if cfg.isEmpty = true then none
          else some (cfg.map (fun kv => (kv.1, decode_field row kv.2))))
        = some (cfg.map (fun kv => (kv.1, decode_field row kv.2)))
    rw [if_neg (fun hc => hne (List.isEmpty_iff.1 hc))]
  · refine List.mem_map.2 ⟨(key, f), hmem, ?_⟩
    rw [h1]

/-- Witness for C9: the date value `"00000000"` with format `%Y%m%d`
decodes to null. -/
theorem c9_all_zero_dates_null_witness :
    decode_field ("00000000".toList) ⟨1, 8, FType.date, some ("%Y%m%d".toList)⟩
      = PyVal.vnone ∧
    (("d".toList, PyVal.vnone) ∈
      [(("d".toList), ⟨1, 8, FType.date, some ("%Y%m%d".toList)⟩)].map
        (fun kv : List Char × FieldSpec => (kv.1, decode_field ("00000000".toList) kv.2))) :=
  ⟨(c9_all_zero_dates_null ("00000000".toList)
      [("d".toList, ⟨1, 8, FType.date, some ("%Y%m%d".toList)⟩)] (by decide)
      ("d".toList) ⟨1, 8, FType.date, some ("%Y%m%d".toList)⟩ (by decide)
      (Or.inl rfl) (by decide)).1,
   (c9_all_zero_dates_null ("00000000".toList)
      [("d".toList, ⟨1, 8, FType.date, some ("%Y%m%d".toList)⟩)] (by decide)
      ("d".toList) ⟨1, 8, FType.date, some ("%Y%m%d".toList)⟩ (by decide)
      (Or.inl rfl) (by decide)).2.2⟩

/-! ## Claim C1: the final normalization nulls every typed value -/

/-- C1 (code bug): decoding the row `"abc1"` under the layout
`{x:[1,3] string, y:[4,4] integer}`.  The integer field is parsed to 1 and
then forced to null by the final normalization
`value if value and isinstance(value, str) else None`, which keeps only
non-empty strings; the claim (and the decoder's own docstring together
with the typed Excel formats in `txt2xlsx`) expects `y = 1`. -/
theorem c1_final_normalization_nulls_typed_values :
    decode_record ("abc1".toList)
      (some [("x".toList, ⟨1, 3, FType.string, none⟩),
             ("y".toList, ⟨4, 4, FType.integer, none⟩)])
      = some [("x".toList, PyVal.vstr ("abc".toList)),
              ("y".toList, PyVal.vnone)] ∧
    PyVal.vnone ≠ PyVal.vint 1 :=
  ⟨by decide, by decide⟩

/-! ### The store model: effects of one insert -/

theorem getTable_insertRow (db : DB) (t' t : List Char) (r : StoredRow) :
    getTable (insertRow db t' r) t
      = if t' = t then getTable db t ++ [r] else getTable db t := by
  induction db with
  | nil =>
    show getTable [(t', [r])] t = if t' = t then [] ++ [r] else []
    by_cases h : t' = t
    · rw [if_pos h]
      show (if t' = t then [r] else getTable [] t) = [] ++ [r]
      rw [if_pos h]
      rfl
    · rw [if_neg h]
      show (if t' = t then [r] else getTable [] t) = []
      rw [if_neg h]
      rfl
  | cons p rest ih =>
    show getTable (if p.1 = t' then (p.1, p.2 ++ [r]) :: rest
                   else (p.1, p.2) :: insertRow rest t' r) t
        = if t' = t then getTable ((p.1, p.2) :: rest) t ++ [r]
          else getTable ((p.1, p.2) :: rest) t
    by_cases hpt : p.1 = t'
    · rw [if_pos hpt]
      show (if p.1 = t then p.2 ++ [r] else getTable rest t)
          = if t' = t then (if p.1 = t then p.2 else getTable rest t) ++ [r]
            else (if p.1 = t then p.2 else getTable rest t)
      by_cases ht : t' = t
      · rw [if_pos ht, if_pos (hpt.trans ht), if_pos (hpt.trans ht)]
      · rw [if_neg ht, if_neg (fun hc => ht (hpt ▸ hc)), if_neg (fun hc => ht (hpt ▸ hc))]
    · rw [if_neg hpt]
      show (if p.1 = t then p.2 else getTable (insertRow rest t' r) t)
          = if t' = t then (if p.1 = t then p.2 else getTable rest t) ++ [r]
            else (if p.1 = t then p.2 else getTable rest t)
      rw [ih]
      by_cases ht : t' = t
      · rw [if_pos ht, if_pos ht]
        rw [if_neg (fun hc => hpt (hc.trans ht.symm)), if_neg (fun hc => hpt (hc.trans ht.symm))]
      · rw [if_neg ht, if_neg ht]

theorem seen_insertRow_mono (db : DB) (t' t f : List Char) (m : Nat) (r : StoredRow)
    (h : seen db t f m = true) : seen (insertRow db t' r) t f m = true := by
  unfold seen at h ⊢
  rw [getTable_insertRow]
  by_cases ht : t' = t
  · rw [if_pos ht, List.any_append, Bool.or_eq_true]
    exact Or.inl h
  · rw [if_neg ht]
    exact h

theorem seen_insertRow_self (db : DB) (t f : List Char) (m : Nat)
    (fields : List (List Char × PyVal)) (jb : Nat) :
    seen (insertRow db t ⟨f, m, jb, fields⟩) t f m = true := by
  unfold seen
  rw [getTable_insertRow, if_pos rfl, List.any_append, Bool.or_eq_true]
  right
  simp

/-! ### One row of `charge_stream`: skip on duplicate, monotonicity -/

theorem chargeRow_skip (db : DB) (name sn : List Char) (cfg : StreamConfig)
    (jb k n : Nat) (row : List Char)
    (hseen : seen db (rowTable sn cfg row)
      (reconstruct name k n).1 (reconstruct name k n).2 = true) :
    chargeRow db name sn cfg jb k n row = db := by
  unfold chargeRow
  cases hdec : decode_record row (List.lookup (rowRecordCode cfg row) cfg.records) with
  | none => rfl
  | some rec =>
    show (if seen db (rowTable sn cfg row)
            (reconstruct name k n).1 (reconstruct name k n).2 then db
          else insertRow db (rowTable sn cfg row)
            ⟨(reconstruct name k n).1, (reconstruct name k n).2, jb, rec⟩) = db
    rw [if_pos hseen]

theorem chargeRow_mono (db : DB) (name sn : List Char) (cfg : StreamConfig)
    (jb k n : Nat) (row : List Char) (t f : List Char) (m : Nat)
    (h : seen db t f m = true) :
    seen (chargeRow db name sn cfg jb k n row) t f m = true := by
  unfold chargeRow
  cases hdec : decode_record row (List.lookup (rowRecordCode cfg row) cfg.records) with
  | none => exact h
  | some rec =>
    show seen (if seen db (rowTable sn cfg row)
            (reconstruct name k n).1 (reconstruct name k n).2 then db
          else insertRow db (rowTable sn cfg row)
            ⟨(reconstruct name k n).1, (reconstruct name k n).2, jb, rec⟩) t f m = true
    by_cases hs : seen db (rowTable sn cfg row)
        (reconstruct name k n).1 (reconstruct name k n).2 = true
    · rw [if_pos hs]; exact h
    · rw [if_neg hs]
      exact seen_insertRow_mono db _ t f m _ h

theorem chargeRow_covers (db : DB) (name sn : List Char) (cfg : StreamConfig)
    (jb k n : Nat) (row : List Char)
    (hdec : decode_record row (List.lookup (rowRecordCode cfg row) cfg.records) ≠ none) :
    seen (chargeRow db name sn cfg jb k n row) (rowTable sn cfg row)
      (reconstruct name k n).1 (reconstruct name k n).2 = true := by
  unfold chargeRow
  cases hd : decode_record row (List.lookup (rowRecordCode cfg row) cfg.records) with
  | none => exact absurd hd hdec
  | some rec =>
    show seen (if seen db (rowTable sn cfg row)
            (reconstruct name k n).1 (reconstruct name k n).2 then db
          else insertRow db (rowTable sn cfg row)
            ⟨(reconstruct name k n).1, (reconstruct name k n).2, jb, rec⟩)
          (rowTable sn cfg row)
          (reconstruct name k n).1 (reconstruct name k n).2 = true
    by_cases hs : seen db (rowTable sn cfg row)
        (reconstruct name k n).1 (reconstruct name k n).2 = true
    · rw [if_pos hs]; exact hs
    · rw [if_neg hs]
      exact seen_insertRow_self db _ _ _ _ jb

/-! ### The row loop and the chunk fold: skip and coverage -/

theorem chargeRows_mono (name sn : List Char) (cfg : StreamConfig) (jb k : Nat) :
    ∀ (rows : List (List Char)) (db : DB) (n : Nat) (t f : List Char) (m : Nat),
    seen db t f m = true →
    seen (chargeRows name sn cfg jb k db n rows) t f m = true := by
  intro rows
  induction rows with
  | nil => intro db n t f m h; exact h
  | cons row rest ih =>
    intro db n t f m h
    exact ih _ (n + 1) t f m (chargeRow_mono db name sn cfg jb k n row t f m h)

theorem chargeRows_skip (name sn : List Char) (cfg : StreamConfig) (jb k : Nat) :
    ∀ (rows : List (List Char)) (db : DB) (n : Nat),
    (∀ j row, rows.get? j = some row →
      decode_record row (List.lookup (rowRecordCode cfg row) cfg.records) ≠ none →
      seen db (rowTable sn cfg row)
        (reconstruct name k (n + j)).1 (reconstruct name k (n + j)).2 = true) →
    chargeRows name sn cfg jb k db n rows = db := by
  intro rows
  induction rows with
  | nil => intro db n _; rfl
  | cons row rest ih =>
    intro db n h
    have hhead : chargeRow db name sn cfg jb k n row = db := by
      by_cases hdec : decode_record row
          (List.lookup (rowRecordCode cfg row) cfg.records) = none
      · unfold chargeRow
        rw [hdec]
      · exact chargeRow_skip db name sn cfg jb k n row
          (by simpa using h 0 row rfl hdec)
    show chargeRows name sn cfg jb k
        (chargeRow db name sn cfg jb k n row) (n + 1) rest = db
    rw [hhead]
    apply ih db (n + 1)
    intro j row' hj hdec
    have := h (j + 1) row' (by simpa using hj) hdec
    have harith : n + (j + 1) = n + 1 + j := by omega
    rw [← harith]
    exact this

theorem chargeRows_covers (name sn : List Char) (cfg : StreamConfig) (jb k : Nat) :
    ∀ (rows : List (List Char)) (db : DB) (n : Nat) (j : Nat) (row : List Char),
    rows.get? j = some row →
    decode_record row (List.lookup (rowRecordCode cfg row) cfg.records) ≠ none →
    seen (chargeRows name sn cfg jb k db n rows) (rowTable sn cfg row)
      (reconstruct name k (n + j)).1 (reconstruct name k (n + j)).2 = true := by
  intro rows
  induction rows with
  | nil => intro db n j row hj; simp at hj
  | cons row0 rest ih =>
    intro db n j row hj hdec
    cases j with
    | zero =>
      have hrow : row0 = row := Option.some.inj hj
      subst hrow
      show seen (chargeRows name sn cfg jb k
          (chargeRow db name sn cfg jb k n row0) (n + 1) rest) (rowTable sn cfg row0)
          (reconstruct name k (n + 0)).1 (reconstruct name k (n + 0)).2 = true
      apply chargeRows_mono
      simpa using chargeRow_covers db name sn cfg jb k n row0 hdec
    | succ j' =>
      have := ih (chargeRow db name sn cfg jb k n row0) (n + 1) j' row
        (by simpa using hj) hdec
      have harith : n + 1 + j' = n + (j' + 1) := by omega
      rw [harith] at this
      exact this

theorem chargeMany_mono (sn : List Char) (cfg : StreamConfig) (jb k : Nat) :
    ∀ (chunks : List (List Char × List (List Char))) (db : DB)
      (t f : List Char) (m : Nat),
    seen db t f m = true →
    seen (chunks.foldl
      (fun d nc => charge_stream d nc.1 sn cfg jb k nc.2) db) t f m = true := by
  intro chunks
  induction chunks with
  | nil => intro db t f m h; exact h
  | cons nc rest ih =>
    intro db t f m h
    exact ih _ t f m (chargeRows_mono nc.1 sn cfg jb k nc.2 db 1 t f m h)

theorem chargeMany_covers (sn : List Char) (cfg : StreamConfig) (jb k : Nat) :
    ∀ (chunks : List (List Char × List (List Char))) (db : DB)
      (nc : List Char × List (List Char)) (j : Nat) (row : List Char),
    nc ∈ chunks → nc.2.get? j = some row →
    decode_record row (List.lookup (rowRecordCode cfg row) cfg.records) ≠ none →
    seen (chunks.foldl
        (fun d nc => charge_stream d nc.1 sn cfg jb k nc.2) db)
      (rowTable sn cfg row)
      (reconstruct nc.1 k (1 + j)).1 (reconstruct nc.1 k (1 + j)).2 = true := by
  intro chunks
  induction chunks with
  | nil => intro db nc j row hmem; simp at hmem
  | cons nc0 rest ih =>
    intro db nc j row hmem hj hdec
    rcases List.mem_cons.1 hmem with heq | hmem'
    · subst heq
      show seen (rest.foldl (fun d nc => charge_stream d nc.1 sn cfg jb k nc.2)
          (charge_stream db nc.1 sn cfg jb k nc.2)) (rowTable sn cfg row)
          (reconstruct nc.1 k (1 + j)).1 (reconstruct nc.1 k (1 + j)).2 = true
      apply chargeMany_mono
      exact chargeRows_covers nc.1 sn cfg jb k nc.2 db 1 j row hj hdec
    · exact ih _ nc j row hmem' hj hdec

theorem chargeMany_skip (sn : List Char) (cfg : StreamConfig) (jb k : Nat) :
    ∀ (chunks : List (List Char × List (List Char))) (db : DB),
    (∀ nc, nc ∈ chunks → ∀ j row, nc.2.get? j = some row →
      decode_record row (List.lookup (rowRecordCode cfg row) cfg.records) ≠ none →
      seen db (rowTable sn cfg row)
        (reconstruct nc.1 k (1 + j)).1 (reconstruct nc.1 k (1 + j)).2 = true) →
    chunks.foldl (fun d nc => charge_stream d nc.1 sn cfg jb k nc.2) db = db := by
  intro chunks
  induction chunks with
  | nil => intro db _; rfl
  | cons nc0 rest ih =>
    intro db h
    have hhead : charge_stream db nc0.1 sn cfg jb k nc0.2 = db := by
      apply chargeRows_skip
      intro j row hj hdec
      have := h nc0 (List.mem_cons_self nc0 rest) j row hj hdec
      simpa using this
    show rest.foldl (fun d nc => charge_stream d nc.1 sn cfg jb k nc.2)
        (charge_stream db nc0.1 sn cfg jb k nc0.2) = db
    rw [hhead]
    exact ih db (fun nc hm => h nc (List.mem_cons_of_mem nc0 hm))

/-! ## Claim C3: duplicate rows are skipped; the pipeline is idempotent -/

/-- C3: a row whose reconstructed `(sys_filename, sys_row_number)` pair is
already present in its target table is skipped without an insert, and
consequently running the whole split-and-charge pipeline a second time
over the same input file leaves every table's row count (indeed the whole
store) unchanged. -/
theorem c3_dedup_idempotent :
    (∀ (db : DB) (name sn : List Char) (cfg : StreamConfig) (jb k n : Nat)
       (row : List Char),
      seen db (rowTable sn cfg row)
        (reconstruct name k n).1 (reconstruct name k n).2 = true →
      chargeRow db name sn cfg jb k n row = db) ∧
    (∀ (db : DB) (base sn : List Char) (cfg : StreamConfig) (jb jb' k : Nat)
       (rows : List (List Char)) (t : List Char),
      tableCount (runPipelineOnFile
          (runPipelineOnFile db base sn cfg jb k rows) base sn cfg jb' k rows) t
        = tableCount (runPipelineOnFile db base sn cfg jb k rows) t) := by
  constructor
  · intro db name sn cfg jb k n row hseen
    exact chargeRow_skip db name sn cfg jb k n row hseen
  · intro db base sn cfg jb jb' k rows t
    have hfix : runPipelineOnFile
        (runPipelineOnFile db base sn cfg jb k rows) base sn cfg jb' k rows
        = runPipelineOnFile db base sn cfg jb k rows := by
      unfold runPipelineOnFile
      apply chargeMany_skip
      intro nc hmem j row hj hdec
      exact chargeMany_covers sn cfg jb k (break_stream_named base rows k) db nc
        j row hmem hj hdec
    rw [hfix]

/-- Witness for C3: a duplicate row (same file, same row number) already
stored is skipped; charging the same two-row chunk twice leaves the
table's row count at 2. -/
theorem c3_dedup_idempotent_witness :
    chargeRow [("s_a".toList,
        [⟨"f.txt".toList, 1, 0, [("x".toList, PyVal.vstr ("ab".toList))]⟩])]
      ("f.txt#0".toList) ("s".toList)
      ⟨(1, 1), [("A".toList, [("x".toList, ⟨2, 3, FType.string, none⟩)])]⟩
      0 100000 1 ("Aab".toList)
      = [("s_a".toList,
          [⟨"f.txt".toList, 1, 0, [("x".toList, PyVal.vstr ("ab".toList))]⟩])] ∧
    tableCount
        (runPipelineOnFile
          (runPipelineOnFile [] ("f.txt".toList) ("s".toList)
            ⟨(1, 1), [("A".toList, [("x".toList, ⟨2, 3, FType.string, none⟩)])]⟩
            0 100000 ["Aab".toList, "Acd".toList])
          ("f.txt".toList) ("s".toList)
          ⟨(1, 1), [("A".toList, [("x".toList, ⟨2, 3, FType.string, none⟩)])]⟩
          7 100000 ["Aab".toList, "Acd".toList]) ("s_a".toList)
      = tableCount
          (runPipelineOnFile [] ("f.txt".toList) ("s".toList)
            ⟨(1, 1), [("A".toList, [("x".toList, ⟨2, 3, FType.string, none⟩)])]⟩
            0 100000 ["Aab".toList, "Acd".toList]) ("s_a".toList) :=
  ⟨c3_dedup_idempotent.1 _ ("f.txt#0".toList) ("s".toList) _ 0 100000 1
      ("Aab".toList) (by decide),
   c3_dedup_idempotent.2 [] ("f.txt".toList) ("s".toList) _ 0 7 100000
      ["Aab".toList, "Acd".toList] ("s_a".toList)⟩

/-! ### Schema synchronization: per-field DDL analysis -/

theorem mem_checkExistingTable (tn : List Char)
    (columns : List (List Char × (List Char × Option Nat)))
    (layout : List (List Char × FieldSpec)) (a : DDL) :
    a ∈ checkExistingTable tn columns layout
      ↔ ∃ kv ∈ layout, a ∈ emitFieldDDL tn columns kv := by
  unfold checkExistingTable
  exact List.mem_flatMap

theorem lenLt_true (len : Option Nat) (w : Nat) (h : lenLt len w = true) :
    ∃ n, len = some n ∧ n < w := by
  cases len with
  | none => exact absurd h (by simp [lenLt])
  | some n =>
    refine ⟨n, rfl, ?_⟩
    simpa [lenLt] using h

theorem emitFieldDDL_eq_none (tn : List Char)
    (columns : List (List Char × (List Char × Option Nat)))
    (kv : List Char × FieldSpec) (hl : List.lookup kv.1 columns = none) :
    emitFieldDDL tn columns kv = [DDL.addColumn tn kv.1 (define_record_type kv.2)] := by
  unfold emitFieldDDL
  rw [hl]

theorem emitFieldDDL_eq_some (tn : List Char)
    (columns : List (List Char × (List Char × Option Nat)))
    (kv : List Char × FieldSpec) (tl : List Char × Option Nat)
    (hl : List.lookup kv.1 columns = some tl) :
    emitFieldDDL tn columns kv
      = if tl.1 == ("VARCHAR".toList) && lenLt tl.2 (fieldWidth kv.2) then
          [DDL.alterColumn tn kv.1 (define_record_type kv.2)]
        else [] := by
  unfold emitFieldDDL
  rw [hl]

theorem emitFieldDDL_alter_inv (tn : List Char)
    (columns : List (List Char × (List Char × Option Nat)))
    (key' : List Char) (f : FieldSpec) (key : List Char) (t : SqlType)
    (h : DDL.alterColumn tn key t ∈ emitFieldDDL tn columns (key', f)) :
    key = key' ∧ t = define_record_type f ∧
    ∃ n, List.lookup key' columns = some ("VARCHAR".toList, some n) ∧
      n < fieldWidth f := by
  cases hl : List.lookup key' columns with
  | none =>
    rw [emitFieldDDL_eq_none tn columns (key', f) hl] at h
    simp at h
  | some tl =>
    rw [emitFieldDDL_eq_some tn columns (key', f) tl hl] at h
    by_cases hc : (tl.1 == ("VARCHAR".toList) && lenLt tl.2 (fieldWidth f)) = true
    · rw [if_pos hc] at h
      have heq := List.mem_singleton.1 h
      rw [DDL.alterColumn.injEq] at heq
      rw [Bool.and_eq_true] at hc
      rcases lenLt_true tl.2 (fieldWidth f) hc.2 with ⟨n, hn1, hn2⟩
      refine ⟨heq.2.1, heq.2.2, n, ?_, hn2⟩
      have hty1 : tl.1 = "VARCHAR".toList := eq_of_beq hc.1
      have htl : tl = ("VARCHAR".toList, some n) := by
        rcases tl with ⟨a, b⟩
        simp only at hty1 hn1
        rw [hty1, hn1]
      rw [htl]
    · rw [if_neg hc] at h
      simp at h

theorem emitFieldDDL_alter_mem (tn : List Char)
    (columns : List (List Char × (List Char × Option Nat)))
    (key : List Char) (f : FieldSpec) (n : Nat)
    (hl : List.lookup key columns = some ("VARCHAR".toList, some n))
    (hn : n < fieldWidth f) :
    DDL.alterColumn tn key (define_record_type f)
      ∈ emitFieldDDL tn columns (key, f) := by
  rw [emitFieldDDL_eq_some tn columns (key, f) ("VARCHAR".toList, some n) hl]
  rw [if_pos]
  · exact List.mem_singleton.2 rfl
  · rw [Bool.and_eq_true]
    refine ⟨by simp, ?_⟩
    show lenLt (some n) (fieldWidth f) = true
    simpa [lenLt] using hn

theorem emitFieldDDL_shapes (tn : List Char)
    (columns : List (List Char × (List Char × Option Nat)))
    (kv : List Char × FieldSpec) (a : DDL)
    (h : a ∈ emitFieldDDL tn columns kv) :
    (∃ c ty, a = DDL.addColumn tn c ty) ∨ (∃ c ty, a = DDL.alterColumn tn c ty) := by
  cases hl : List.lookup kv.1 columns with
  | none =>
    rw [emitFieldDDL_eq_none tn columns kv hl] at h
    exact Or.inl ⟨kv.1, define_record_type kv.2, (List.mem_singleton.1 h)⟩
  | some tl =>
    rw [emitFieldDDL_eq_some tn columns kv tl hl] at h
    by_cases hc : (tl.1 == ("VARCHAR".toList) && lenLt tl.2 (fieldWidth kv.2)) = true
    · rw [if_pos hc] at h
      exact Or.inr ⟨kv.1, define_record_type kv.2, (List.mem_singleton.1 h)⟩
    · rw [if_neg hc] at h
      simp at h

theorem define_record_type_varchar (f : FieldSpec) (m : Nat)
    (h : define_record_type f = SqlType.varchar m) :
    f.ftype = FType.string ∧ fieldWidth f = m := by
  unfold define_record_type at h
  cases hf : f.ftype <;> rw [hf] at h <;> simp_all

/-! ## Claim C5: when and how columns are altered -/

/-- C5 (amended): on an existing table, an `ALTER COLUMN ... TYPE` is
issued for a column iff the observed column type is the string kind
(`VARCHAR`) and its declared length is strictly below the layout field's
required width; the new type is the field's mapped SQL type, which is
`VARCHAR(width)` — a genuine widening — exactly when the field's type is
string.  Whenever the issued type is a `VARCHAR(m)`, the existing length
was strictly below `m` (never a narrowing); only ADD and ALTER statements
are ever issued (no drops); non-string existing columns are never
altered.  The `VARCHAR(10)`-against-width-20 scenario issues exactly one
widen to `VARCHAR(20)`, and a re-run with the width satisfied issues
none. -/
theorem c5_widen_characterization :
    (∀ (tn : List Char) (columns : List (List Char × (List Char × Option Nat)))
       (layout : List (List Char × FieldSpec)) (key : List Char) (t : SqlType),
      DDL.alterColumn tn key t ∈ checkExistingTable tn columns layout →
      ∃ f n, (key, f) ∈ layout ∧
        List.lookup key columns = some ("VARCHAR".toList, some n) ∧
        n < fieldWidth f ∧ t = define_record_type f) ∧
    (∀ (tn : List Char) (columns : List (List Char × (List Char × Option Nat)))
       (layout : List (List Char × FieldSpec)) (key : List Char) (f : FieldSpec)
       (n : Nat),
      (key, f) ∈ layout →
      List.lookup key columns = some ("VARCHAR".toList, some n) →
      n < fieldWidth f →
      DDL.alterColumn tn key (define_record_type f)
        ∈ checkExistingTable tn columns layout) ∧
    (∀ (tn : List Char) (columns : List (List Char × (List Char × Option Nat)))
       (layout : List (List Char × FieldSpec)) (key : List Char) (m : Nat),
      DDL.alterColumn tn key (SqlType.varchar m)
        ∈ checkExistingTable tn columns layout →
      ∃ n, List.lookup key columns = some ("VARCHAR".toList, some n) ∧ n < m) ∧
    (∀ (tn : List Char) (columns : List (List Char × (List Char × Option Nat)))
       (layout : List (List Char × FieldSpec)) (ty : List Char)
       (len : Option Nat) (key : List Char),
      List.lookup key columns = some (ty, len) → ty ≠ "VARCHAR".toList →
      ∀ t, DDL.alterColumn tn key t ∉ checkExistingTable tn columns layout) ∧
    (∀ (tn : List Char) (columns : List (List Char × (List Char × Option Nat)))
       (layout : List (List Char × FieldSpec)) (a : DDL),
      a ∈ checkExistingTable tn columns layout →
      (∃ c ty, a = DDL.addColumn tn c ty) ∨ (∃ c ty, a = DDL.alterColumn tn c ty)) ∧
    checkExistingTable ("t".toList)
        [("name".toList, ("VARCHAR".toList, some 10))]
        [("name".toList, ⟨1, 20, FType.string, none⟩)]
      = [DDL.alterColumn ("t".toList) ("name".toList) (SqlType.varchar 20)] ∧
    checkExistingTable ("t".toList)
        [("name".toList, ("VARCHAR".toList, some 20))]
        [("name".toList, ⟨1, 20, FType.string, none⟩)]
      = [] := by
  refine ⟨?_, ?_, ?_, ?_, ?_, by decide, by decide⟩
  · intro tn columns layout key t h
    rcases (mem_checkExistingTable tn columns layout _).1 h with ⟨kv, hkv, hmem⟩
    rcases emitFieldDDL_alter_inv tn columns kv.1 kv.2 key t hmem with
      ⟨hkey, ht, n, hl, hn⟩
    exact ⟨kv.2, n, by rw [hkey]; exact hkv, by rw [hkey]; exact hl, hn, ht⟩
  · intro tn columns layout key f n hkv hl hn
    exact (mem_checkExistingTable tn columns layout _).2
      ⟨(key, f), hkv, emitFieldDDL_alter_mem tn columns key f n hl hn⟩
  · intro tn columns layout key m h
    rcases (mem_checkExistingTable tn columns layout _).1 h with ⟨kv, hkv, hmem⟩
    rcases emitFieldDDL_alter_inv tn columns kv.1 kv.2 key _ hmem with
      ⟨hkey, ht, n, hl, hn⟩
    rcases define_record_type_varchar kv.2 m ht.symm with ⟨_, hw⟩
    exact ⟨n, by rw [hkey]; exact hl, by omega⟩
  · intro tn columns layout ty len key hl hty t h
    rcases (mem_checkExistingTable tn columns layout _).1 h with ⟨kv, hkv, hmem⟩
    rcases emitFieldDDL_alter_inv tn columns kv.1 kv.2 key t hmem with
      ⟨hkey, ht, n, hl', hn⟩
    rw [← hkey, hl] at hl'
    have := Option.some.inj hl'
    apply hty
    have := congrArg Prod.fst this
    exact this
  · intro tn columns layout a h
    rcases (mem_checkExistingTable tn columns layout _).1 h with ⟨kv, hkv, hmem⟩
    exact emitFieldDDL_shapes tn columns kv a hmem

/-- Witness for C5: the scenario-C table with `name VARCHAR(10)` and a
width-20 string field receives the widen to `VARCHAR(20)` via the
characterization's converse direction. -/
theorem c5_widen_characterization_witness :
    DDL.alterColumn ("t".toList) ("name".toList) (SqlType.varchar 20)
      ∈ checkExistingTable ("t".toList)
        [("name".toList, ("VARCHAR".toList, some 10))]
        [("name".toList, ⟨1, 20, FType.string, none⟩)] :=
  c5_widen_characterization.2.1 ("t".toList)
    [("name".toList, ("VARCHAR".toList, some 10))]
    [("name".toList, ⟨1, 20, FType.string, none⟩)]
    ("name".toList) ⟨1, 20, FType.string, none⟩ 10 (by decide) (by decide) (by decide)

/-- C5 counterexample: an existing `VARCHAR(2)` column whose layout field
is `integer` with width 5 is altered — but to `INTEGER`, not to the
claim's "exactly that width" `VARCHAR(5)`. -/
theorem c5_counterexample_type_change :
    checkExistingTable ("t".toList) [("y".toList, ("VARCHAR".toList, some 2))]
        [("y".toList, ⟨1, 5, FType.integer, none⟩)]
      = [DDL.alterColumn ("t".toList) ("y".toList) SqlType.integer] ∧
    SqlType.integer ≠ SqlType.varchar 5 :=
  ⟨by decide, by decide⟩

/-! ## Claim C6: the column name used by the ADD COLUMN path -/

/-- C6 (code bug): the creation path registers columns under normalized
names (`define_record_name(key)`), but the synchronization path compares
and adds the RAW key: against a table whose existing column is the
normalized `my_field`, the field `"My Field"` triggers an `ADD COLUMN`
under the raw name `"My Field"` instead of being recognized as present
under its normalized name. -/
theorem c6_add_column_uses_raw_name :
    checkExistingTable ("t".toList)
        [("my_field".toList, ("VARCHAR".toList, some 10))]
        [("My Field".toList, ⟨1, 10, FType.string, none⟩)]
      = [DDL.addColumn ("t".toList) ("My Field".toList) (SqlType.varchar 10)] ∧
    createColumns [("My Field".toList, ⟨1, 10, FType.string, none⟩)]
      = [("my_field".toList, SqlType.varchar 10)] ∧
    define_record_name ("My Field".toList) = "my_field".toList ∧
    "My Field".toList ≠ "my_field".toList :=
  ⟨by decide, by decide, by decide, by decide⟩


end Schevo
